import Mathlib

/-!
Verification development for the petronel raid aggregator.

This file gives a shallow embedding of the parts of the source relevant to the
stated claims, and proves (or refutes) each claim against the embedding:

* `CircularBuffer` embeds src/circular_buffer.rs; a `push` that would panic in
  Rust (index out of bounds, or modulo by a zero capacity) is modelled by
  returning `none`.
* `IdPool` embeds src/id_pool.rs (Rust `Vec` push/pop at the end of the vector
  is rendered as cons/head of a list, so the list head is the top of the
  LIFO free list).
* `Broadcast` embeds src/broadcast.rs; a subscriber is an abstract state
  `σ` together with a send function `σ → Item → Option σ` where `none`
  renders the `Err` result of `Subscriber::send` (the subscriber is then
  evicted by `Broadcast::send`, which embeds the `retain` pass).
* The parser embeds src/raid.rs (`parse_text`, `RaidInfo::from_tweet`) and the
  boss-name level parser of src/model.rs; the two raid-announcement regular
  expressions are unrolled into explicit leftmost-preference matchers over
  character lists.
* `Worker` and its event handlers embed src/client/worker.rs; `HashMap`s are
  rendered as association lists (iteration order of a `HashMap` is
  unspecified, list order stands in for it).  Handlers return the list of
  pre-adapter `Message` values that were offered to the global subscriber
  group during the event (each entry corresponds to one
  `self.subscribers.maybe_send((self.filter_map_message)(msg).as_ref())`
  call in the source); the heartbeat broadcast re-sends a value adapted at
  build time and is not logged.  Metric calls and image-hash requests are
  accumulated in trace fields of the worker.
* `HashPipeline` embeds the request/outstanding bookkeeping of
  src/image_hash/mod.rs (`Inner::poll`, `ImageHashReceiver::poll`) as a step
  machine: `requestStep` is `ImageHashSender::request`, `startStep` is one
  `Inner::poll` performed by the `BufferUnordered` combinator when it has
  spare concurrency, `completeStep` is a successful fetch being delivered by
  `ImageHashReceiver::poll`, and `failStep` is a fetch future failing.
-/

namespace Petronel

/-! ## Basic model types (src/model.rs) -/

/-- Interned boss-name string (`BossName` in src/model.rs). -/
abbrev BossName := String

/-- Interned image-url string (`BossImageUrl` in src/model.rs). -/
abbrev BossImageUrl := String

/-- 64-bit perceptual hash (`ImageHash` in src/image_hash/phash.rs); the
claims treat it as an opaque value, so it is rendered as `Nat`. -/
abbrev ImageHash := Nat

/-- Timestamps (`DateTime` in src/model.rs) are opaque to every claim. -/
abbrev DateTime := Nat

/-- `Language` from src/model.rs. -/
inductive Language where
  | japanese
  | english
  | other
deriving DecidableEq, Repr

/-- `RaidTweet` from src/model.rs. -/
structure RaidTweet where
  tweetId : Nat
  bossName : BossName
  raidId : String
  user : String
  userImage : Option String
  text : Option String
  createdAt : DateTime
  language : Language
deriving DecidableEq, Repr

/-- `RaidBoss` from src/model.rs.  The `HashSet<BossName>` of translations is
rendered as a list into which names are inserted only when absent. -/
structure RaidBoss where
  name : BossName
  level : Int
  image : Option BossImageUrl
  language : Language
  translations : List BossName
deriving DecidableEq, Repr

/-- `RaidBossMetadata` from src/model.rs. -/
structure RaidBossMetadata where
  boss : RaidBoss
  lastSeen : DateTime
  imageHash : Option ImageHash
deriving DecidableEq, Repr

/-- The internal `Message` sum type handed to the message adapter
(src/model.rs plus the `BossRemove` constructor used by
`Worker::remove_bosses` in src/client/worker.rs). -/
inductive Message where
  | heartbeat
  | tweet (t : RaidTweet)
  | tweetList (ts : List RaidTweet)
  | bossUpdate (b : RaidBoss)
  | bossList (bs : List RaidBoss)
  | bossRemove (name : BossName)
deriving DecidableEq, Repr

/-- One call on the `Metrics` capability (src/metrics.rs), recorded in a
trace field of the worker. -/
inductive MetricsEvent where
  | setTotalSubscriberCount (count : Nat)
  | setFollowerCount (bossName : BossName) (count : Nat)
  | incTweetCount (bossName : BossName)
  | removeBoss (bossName : BossName)
deriving DecidableEq, Repr

/-! ## Ring buffer (src/circular_buffer.rs) -/

/-- `CircularBuffer` from src/circular_buffer.rs.  `capacity` is the
capacity of the backing `Vec` (fixed at construction; the code never lets
the `Vec` reallocate), `buffer` its contents and `nextIndex` the overwrite
cursor. -/
structure CircularBuffer (α : Type) where
  capacity : Nat
  buffer : List α
  nextIndex : Nat
deriving DecidableEq, Repr

namespace CircularBuffer

/-- `CircularBuffer::with_capacity`. -/
def withCapacity (α : Type) (capacity : Nat) : CircularBuffer α :=
  { capacity := capacity, buffer := [], nextIndex := 0 }

/-- `CircularBuffer::push`.  `none` models a Rust panic: indexing
`self.buffer[self.next_index]` out of bounds, or `% self.buffer.capacity()`
with a zero capacity. -/
def push (b : CircularBuffer α) (item : α) : Option (CircularBuffer α) :=
  if b.buffer.length < b.capacity then
    some { b with buffer := b.buffer ++ [item],
                  nextIndex := (b.nextIndex + 1) % b.capacity }
  else if b.nextIndex < b.buffer.length then
    if b.capacity = 0 then none
    else some { b with buffer := b.buffer.set b.nextIndex item,
                       nextIndex := (b.nextIndex + 1) % b.capacity }
  else none

/-- `CircularBuffer::as_unordered_slice`. -/
def asUnorderedSlice (b : CircularBuffer α) : List α :=
  b.buffer

/-- A whole sequence of pushes, stopping at the first panic. -/
def pushAll (b : CircularBuffer α) (items : List α) : Option (CircularBuffer α) :=
  items.foldlM push b

end CircularBuffer

/-! ## Id pool (src/id_pool.rs) -/

/-- Subscriber ids (`Id(u32)` in src/id_pool.rs). -/
abbrev SubId := Nat

/-- `IdPool` from src/id_pool.rs.  The `available` vector is kept with the
top of the stack (the end of the Rust `Vec`) at the head of the list. -/
structure IdPool where
  maxId : Nat
  available : List SubId
deriving DecidableEq, Repr

namespace IdPool

/-- `IdPool::new`. -/
def new : IdPool := { maxId := 0, available := [] }

/-- `IdPool::get`: pop the free list, or hand out a fresh monotonically
increasing id. -/
def get (p : IdPool) : SubId × IdPool :=
  match p.available with
  | x :: rest => (x, { p with available := rest })
  | [] => (p.maxId, { maxId := p.maxId + 1, available := [] })

/-- `IdPool::recycle`: push onto the free list. -/
def recycle (p : IdPool) (id : SubId) : IdPool :=
  { p with available := id :: p.available }

end IdPool

/-! ## Association lists standing in for `HashMap` -/

/-- `HashMap::get` on the association-list rendering. -/
def alookup {β : Type} (l : List (String × β)) (k : String) : Option β :=
  match l with
  | [] => none
  | p :: rest => if p.1 = k then some p.2 else alookup rest k

/-- `HashMap::get_mut` followed by an in-place mutation: apply `f` to the
entries stored under `k` (a well-formed map has at most one). -/
def aupdate {β : Type} (l : List (String × β)) (k : String) (f : β → β) :
    List (String × β) :=
  l.map (fun p => if p.1 = k then (p.1, f p.2) else p)

/-- `HashMap::insert`: replace the value stored under `k`, or add a new
entry when the key is absent. -/
def ainsert {β : Type} : List (String × β) → String → β → List (String × β)
  | [], k, v => [(k, v)]
  | p :: rest, k, v => if p.1 = k then (k, v) :: rest else p :: ainsert rest k v

/-- `HashMap::remove` (dropping the returned value). -/
def aremove {β : Type} (l : List (String × β)) (k : String) :
    List (String × β) :=
  l.filter (fun p => ¬ p.1 = k)

/-! ## Broadcast groups (src/broadcast.rs) -/

/-- `Broadcast<Id, S>` from src/broadcast.rs: a map from subscriber id to
subscriber state.  The subscriber's `send` implementation is passed to the
operations that need it, as the `Subscriber` trait method is in the source. -/
structure Broadcast (σ : Type) where
  subscribers : List (SubId × σ)
deriving DecidableEq, Repr

namespace Broadcast

/-- `Broadcast::new`. -/
def new (σ : Type) : Broadcast σ := { subscribers := [] }

/-- `Broadcast::is_empty`. -/
def isEmpty (b : Broadcast σ) : Bool := b.subscribers.isEmpty

/-- Lookup among the subscriber entries. -/
def findSub (id : SubId) : List (SubId × σ) → Option σ
  | [] => none
  | p :: rest => if p.1 = id then some p.2 else findSub id rest

/-- `Broadcast::get`. -/
def get (b : Broadcast σ) (id : SubId) : Option σ :=
  findSub id b.subscribers

/-- `Broadcast::subscribe` (`HashMap::insert`: a duplicate id overwrites the
previous subscriber state). -/
def subscribe (b : Broadcast σ) (id : SubId) (s : σ) : Broadcast σ :=
  if (b.get id).isSome then
    { subscribers := b.subscribers.map (fun p => if p.1 = id then (p.1, s) else p) }
  else
    { subscribers := b.subscribers ++ [(id, s)] }

/-- `Broadcast::unsubscribe`. -/
def unsubscribe (b : Broadcast σ) (id : SubId) : Broadcast σ :=
  { subscribers := b.subscribers.filter (fun p => ¬ p.1 = id) }

/-- `Broadcast::subscriber_count`. -/
def subscriberCount (b : Broadcast σ) : Nat := b.subscribers.length

/-- The retain pass of `Broadcast::send`: every subscriber's `send` is
invoked on the message; entries whose send fails (`none`) are removed in the
same pass, the others keep their updated state.  The second component lists
the ids whose `send` was invoked, in order. -/
def sendAll (sendImpl : σ → Item → Option σ) (msg : Item) :
    List (SubId × σ) → List (SubId × σ) × List SubId
  | [] => ([], [])
  | (id, s) :: rest =>
    let tail := sendAll sendImpl msg rest
    match sendImpl s msg with
    | some s' => ((id, s') :: tail.1, id :: tail.2)
    | none => (tail.1, id :: tail.2)

/-- `Broadcast::send`. -/
def send (sendImpl : σ → Item → Option σ) (b : Broadcast σ) (msg : Item) :
    Broadcast σ × List SubId :=
  let r := sendAll sendImpl msg b.subscribers
  ({ subscribers := r.1 }, r.2)

/-- `Broadcast::maybe_send`: send when the adapted message is present. -/
def maybeSend (sendImpl : σ → Item → Option σ) (b : Broadcast σ)
    (msg : Option Item) : Broadcast σ :=
  match msg with
  | some m => (send sendImpl b m).1
  | none => b

/-- `get_mut` on one subscriber followed by `maybe_send` on it, with the
result ignored (`let _ = sub.maybe_send(..)` in the source): the
subscriber's state advances when its send succeeds, and it is not evicted
when the send fails. -/
def sendToOne (sendImpl : σ → Item → Option σ) (b : Broadcast σ)
    (id : SubId) (msg : Option Item) : Broadcast σ :=
  match msg with
  | none => b
  | some m =>
    { subscribers := b.subscribers.map (fun p =>
        if p.1 = id then
          match sendImpl p.2 m with
          | some s' => (p.1, s')
          | none => p
        else p) }

end Broadcast

/-! ## Boss-name level parser (src/model.rs, `BossName::parse_level`)

The regular expression is
  Lv(?:l )?(?P<level>[0-9]+) .*
searched without anchors, so the match is the leftmost position where
"Lv" is followed (optionally via "l ") by a maximal digit run and then a
space; the captured digits are then parsed as an `i16`, and the whole call
returns `None` when that overflows. -/

/-- Numeric value of a digit run. -/
def charsToNat (ds : List Char) : Nat :=
  ds.foldl (fun acc c => acc * 10 + (c.toNat - '0'.toNat)) 0

/-- Matches `[0-9]+ ` (a nonempty greedy digit run followed by a space)
at the head of `cs`; the trailing `.*` of the pattern always matches. -/
def digitsSpace (cs : List Char) : Option Nat :=
  let ds := cs.takeWhile Char.isDigit
  if ds.isEmpty then none
  else
    match cs.drop ds.length with
    | ' ' :: _ => some (charsToNat ds)
    | _ => none

/-- Matches `Lv(?:l )?[0-9]+ ` at the head of `cs`; the alternation prefers
consuming "l " and backtracks when the digits-and-space part fails after it. -/
def levelAt (cs : List Char) : Option Nat :=
  if cs.take 2 = ['L', 'v'] then
    let rest := cs.drop 2
    if rest.take 2 = ['l', ' '] then
      match digitsSpace (rest.drop 2) with
      | some n => some n
      | none => digitsSpace rest
    else digitsSpace rest
  else none

/-- `BossName::parse_level`: leftmost match of the level pattern, with the
captured digits parsed as `i16` (values above 32767 fail the parse and make
the whole call return `None`, as `str::parse::<i16>` does). -/
def parseLevel (name : BossName) : Option Int :=
  match (List.range (name.data.length + 1)).findSome?
      (fun p => levelAt (name.data.drop p)) with
  | some n => if n ≤ 32767 then some (Int.ofNat n) else none
  | none => none

/-! ## Raid-announcement text parser (src/raid.rs, `parse_text`)

Each announcement regex has the shape
  (?P<text>(?s).*)(?P<id>[0-9A-F]{8})MARKER(?P<boss>.+)\n?(?P<url>.*)
with MARKER the language-specific literal.  Without anchors, and with the
leading `(?s).*` greedy, the engine picks the largest split position whose
tail matches; after MARKER, `boss` is the (nonempty) remainder of the
current line and `url` is the following line (empty when there is none).
The match need not consume the whole input, so lines after `url` are
ignored by the regex itself. -/

/-- A digit or an uppercase hex letter, `[0-9A-F]`. -/
def isHexUpper (c : Char) : Bool :=
  c.isDigit || ('A' ≤ c && c ≤ 'F')

/-- `str::trim` on a character list (the source trims Unicode whitespace;
the claims only exercise ASCII whitespace, which `Char.isWhitespace`
covers). -/
def listTrim (cs : List Char) : List Char :=
  ((cs.dropWhile Char.isWhitespace).reverse.dropWhile Char.isWhitespace).reverse

/-- `str::contains` for a literal needle. -/
def containsSub (needle haystack : List Char) : Bool :=
  (List.range (haystack.length + 1)).any
    (fun p => needle.isPrefixOf (haystack.drop p))

/-- The capture groups of one announcement regex. -/
structure RawCaptures where
  text : List Char
  raidId : List Char
  boss : List Char
  url : List Char
deriving DecidableEq, Repr

/-- Try to match `[0-9A-F]{8}MARKER(?P<boss>.+)\n?(?P<url>.*)` with the
eight hex characters starting at offset `p`; the prefix before `p` is the
`text` capture. -/
def matchMarkerAt (marker cs : List Char) (p : Nat) : Option RawCaptures :=
  let idPart := (cs.drop p).take 8
  if idPart.length = 8 && idPart.all isHexUpper
      && marker.isPrefixOf (cs.drop (p + 8)) then
    let rest := cs.drop (p + 8 + marker.length)
    let boss := rest.takeWhile (fun c => c != '\n')
    if boss.isEmpty then none
    else
      let url :=
        match rest.drop boss.length with
        | '\n' :: tail => tail.takeWhile (fun c => c != '\n')
        | _ => []
      some { text := cs.take p, raidId := idPart, boss := boss, url := url }
  else none

/-- The leftmost-preference search of the Rust regex engine: the greedy
leading `(?s).*` makes it prefer the largest split position. -/
def tryRegex (marker cs : List Char) : Option RawCaptures :=
  ((List.range (cs.length + 1)).reverse).findSome? (matchMarkerAt marker cs)

/-- The image-url filter regex, `^https?://[^ ]+$`. -/
def isImageUrl (cs : List Char) : Bool :=
  let tailOk := fun (tail : List Char) =>
    !tail.isEmpty && tail.all (fun c => c != ' ')
  if "https://".data.isPrefixOf cs then tailOk (cs.drop 8)
  else if "http://".data.isPrefixOf cs then tailOk (cs.drop 7)
  else false

/-- The literal marker of the Japanese announcement template, the part of
the regex between the `id` and `boss` captures. -/
def markerJapanese : List Char := " :参戦ID\n参加者募集！\n".data

/-- The literal marker of the English announcement template. -/
def markerEnglish : List Char := " :Battle ID\nI need backup!\n".data

/-- The `TweetParts` produced by `parse_text`. -/
structure TweetParts where
  language : Language
  text : Option String
  raidId : String
  bossName : String
deriving DecidableEq, Repr

/-- The post-match validation and trimming done by `parse_text` once one of
the regexes has produced captures. -/
def buildTweetParts (lang : Language) (r : RawCaptures) : Option TweetParts :=
  let bossName := listTrim r.boss
  if containsSub "http".data bossName
      || (!r.url.isEmpty && !isImageUrl r.url) then
    none
  else
    let t := listTrim r.text
    some { language := lang,
           text := if t.isEmpty then none else some (String.mk t),
           raidId := String.mk (listTrim r.raidId),
           bossName := String.mk bossName }

/-- `parse_text` from src/raid.rs: the Japanese regex is tried first; the
English one is tried only when the Japanese regex produced no captures at
all (a Japanese match that fails validation yields `None` overall). -/
def parseText (s : String) : Option TweetParts :=
  match tryRegex markerJapanese s.data with
  | some r => buildTweetParts Language.japanese r
  | none =>
    match tryRegex markerEnglish s.data with
    | some r => buildTweetParts Language.english r
    | none => none

/-! ## Raw posts and `RaidInfo::from_tweet` (src/raid.rs) -/

/-- The fields of the upstream `Tweet` that `from_tweet` reads. -/
structure TweetUser where
  screenName : String
  defaultProfileImage : Bool
  profileImageUrlHttps : String
deriving DecidableEq, Repr

/-- One entry of the `entities.media` array. -/
structure MediaEntity where
  mediaUrlHttps : String
deriving DecidableEq, Repr

/-- `entities` of a raw post. -/
structure Entities where
  media : Option (List MediaEntity)
deriving DecidableEq, Repr

/-- A raw post as consumed by `RaidInfo::from_tweet`. -/
structure Tweet where
  id : Nat
  text : String
  source : String
  user : TweetUser
  entities : Entities
  createdAt : DateTime
deriving DecidableEq, Repr

/-- The exact `source` literal identifying the game's mobile client. -/
def granblueAppSource : String :=
  "<a href=\"http://granbluefantasy.jp/\" rel=\"nofollow\">グランブルー ファンタジー</a>"

/-- `RaidInfo` from src/raid.rs. -/
structure RaidInfo where
  tweet : RaidTweet
  image : Option BossImageUrl
deriving DecidableEq, Repr

/-- `RaidInfo::from_tweet`.  Note that the media url is taken with
`Vec::pop`, which removes the LAST element of the `media` array
(`List.getLast?` here). -/
def RaidInfo.fromTweet (t : Tweet) : Option RaidInfo :=
  if t.source = granblueAppSource then
    (parseText t.text).map (fun parsed =>
      let userImage :=
        if t.user.defaultProfileImage
            || containsSub "default_profile".data t.user.profileImageUrlHttps.data then
          none
        else some t.user.profileImageUrlHttps
      { tweet := { tweetId := t.id,
                   bossName := parsed.bossName,
                   raidId := parsed.raidId,
                   user := t.user.screenName,
                   userImage := userImage,
                   text := parsed.text,
                   createdAt := t.createdAt,
                   language := parsed.language },
        image := t.entities.media.bind
          (fun media => media.getLast?.map MediaEntity.mediaUrlHttps) })
  else none

/-! ## The aggregator worker (src/client/worker.rs) -/

/-- `RaidBossEntry` from src/client/worker.rs. -/
structure RaidBossEntry (σ : Type) where
  bossData : RaidBossMetadata
  recentTweets : CircularBuffer RaidTweet
  broadcast : Broadcast σ
deriving DecidableEq, Repr

/-- The `Worker` state.  `hashRequests` records the arguments of every
`self.hash_requester.request(..)` call (the real sender additionally drops
urls that fail `Uri` parsing before queueing them), and `metricsLog`
records every call on the `Metrics` capability, in order. -/
structure Worker (σ Item : Type) where
  sendImpl : σ → Item → Option σ
  filterMapMessage : Message → Option Item
  bosses : List (BossName × RaidBossEntry σ)
  tweetHistorySize : Nat
  requestedBosses : List (BossName × Broadcast σ)
  subscribers : Broadcast σ
  cachedBossList : Option Item
  heartbeat : Option Item
  idPool : IdPool
  hashRequests : List (BossName × BossImageUrl)
  metricsLog : List MetricsEvent

/-- `DEFAULT_BOSS_LEVEL` from src/client/worker.rs. -/
def defaultBossLevel : Int := 0

/-- `DEFAULT_HISTORY_SIZE` from src/client/builder.rs. -/
def defaultHistorySize : Nat := 10

/-- `HashSet::insert` on the list rendering of a name set. -/
def insertName (n : BossName) (l : List BossName) : List BossName :=
  if n ∈ l then l else l ++ [n]

/-- `HashSet::extend` on the list rendering of a name set. -/
def extendNames (l : List BossName) (ns : List BossName) : List BossName :=
  ns.foldl (fun acc n => insertName n acc) l

namespace Worker

/-- `Worker::update_cached_boss_list`. -/
def updateCachedBossList (w : Worker σ Item) : Worker σ Item :=
  { w with cachedBossList :=
      w.filterMapMessage (Message.bossList (w.bosses.map (fun p => p.2.bossData.boss))) }

/-- The result of the catalog scan in `Worker::handle_image_hash`. -/
structure ScanResult (σ Item : Type) where
  bosses : List (BossName × RaidBossEntry σ)
  subscribers : Broadcast σ
  log : List Message
  matched : List BossName

/-- The `for entry in self.bosses.values_mut()` loop of
`Worker::handle_image_hash`: each entry whose level matches, whose language
differs and whose stored hash equals the new hash gets the hashed boss's
name added to its translations; a `BossUpdate` for it is offered to the
global group and its own name is remembered in `matches`. -/
def scanFold (f : Message → Option Item) (sendImpl : σ → Item → Option σ)
    (bossName : BossName) (level : Int) (language : Language)
    (imageHash : ImageHash) :
    List (BossName × RaidBossEntry σ) → Broadcast σ → List Message →
    List BossName → ScanResult σ Item
  | [], subs, log, ms => ⟨[], subs, log, ms⟩
  | (n, e) :: rest, subs, log, ms =>
    if e.bossData.boss.level = level ∧ e.bossData.boss.language ≠ language ∧
        e.bossData.imageHash = some imageHash then
      let e' := { e with bossData.boss.translations :=
                    insertName bossName e.bossData.boss.translations }
      let msg := Message.bossUpdate e'.bossData.boss
      let subs' := Broadcast.maybeSend sendImpl subs (f msg)
      let r := scanFold f sendImpl bossName level language imageHash rest
        subs' (log ++ [msg]) (ms ++ [e'.bossData.boss.name])
      ⟨(n, e') :: r.bosses, r.subscribers, r.log, r.matched⟩
    else
      let r := scanFold f sendImpl bossName level language imageHash rest
        subs log ms
      ⟨(n, e) :: r.bosses, r.subscribers, r.log, r.matched⟩

/-- `Worker::handle_image_hash`.  Returns the new state and the pre-adapter
messages offered to the global subscriber group. -/
def handleImageHash (w : Worker σ Item) (bossName : BossName)
    (imageHash : ImageHash) : Worker σ Item × List Message :=
  match alookup w.bosses bossName with
  | none => (w, [])
  | some entry =>
    let level := entry.bossData.boss.level
    let language := entry.bossData.boss.language
    let bosses1 := aupdate w.bosses bossName
      (fun e => { e with bossData.imageHash := some imageHash })
    let r := scanFold w.filterMapMessage w.sendImpl bossName level language
      imageHash bosses1 w.subscribers [] []
    if r.matched.isEmpty then
      ({ w with bosses := r.bosses, subscribers := r.subscribers }, r.log)
    else
      match alookup r.bosses bossName with
      | some e2 =>
        let e3 := { e2 with bossData.boss.translations :=
                      extendNames e2.bossData.boss.translations r.matched }
        let msg := Message.bossUpdate e3.bossData.boss
        let subs3 := Broadcast.maybeSend w.sendImpl r.subscribers
          (w.filterMapMessage msg)
        (({ w with bosses := aupdate r.bosses bossName (fun _ => e3),
                   subscribers := subs3 }).updateCachedBossList,
         r.log ++ [msg])
      | none =>
        (({ w with bosses := r.bosses,
                   subscribers := r.subscribers }).updateCachedBossList,
         r.log)

/-- The result of the retain pass in `Worker::remove_bosses`. -/
structure RemoveResult (σ : Type) where
  bosses : List (BossName × RaidBossEntry σ)
  subscribers : Broadcast σ
  requestedBosses : List (BossName × Broadcast σ)
  log : List Message
  metricsLog : List MetricsEvent

/-- The `self.bosses.retain(..)` pass of `Worker::remove_bosses`: each
matching entry is dropped after offering `BossRemove` to the global group,
moving a non-empty follower group into the pending table and notifying
metrics. -/
def removeBossesFold (f : Message → Option Item)
    (sendImpl : σ → Item → Option σ) (pred : RaidBossMetadata → Bool) :
    List (BossName × RaidBossEntry σ) → Broadcast σ →
    List (BossName × Broadcast σ) → List Message → List MetricsEvent →
    RemoveResult σ
  | [], subs, req, log, ml => ⟨[], subs, req, log, ml⟩
  | (n, e) :: rest, subs, req, log, ml =>
    if pred e.bossData then
      removeBossesFold f sendImpl pred rest
        (Broadcast.maybeSend sendImpl subs
          (f (Message.bossRemove e.bossData.boss.name)))
        (if e.broadcast.isEmpty then req
         else ainsert req e.bossData.boss.name e.broadcast)
        (log ++ [Message.bossRemove e.bossData.boss.name])
        (ml ++ [MetricsEvent.removeBoss e.bossData.boss.name])
    else
      let r := removeBossesFold f sendImpl pred rest subs req log ml
      ⟨(n, e) :: r.bosses, r.subscribers, r.requestedBosses, r.log, r.metricsLog⟩

/-- `Worker::remove_bosses`.  Note that the source does NOT rebuild the
cached boss list here. -/
def removeBosses (w : Worker σ Item) (pred : RaidBossMetadata → Bool) :
    Worker σ Item × List Message :=
  let r := removeBossesFold w.filterMapMessage w.sendImpl pred w.bosses
    w.subscribers w.requestedBosses [] w.metricsLog
  ({ w with bosses := r.bosses, subscribers := r.subscribers,
            requestedBosses := r.requestedBosses, metricsLog := r.metricsLog },
   r.log)

/-- `Worker::subscribe`. -/
def subscribeOp (w : Worker σ Item) (sub : σ) : Worker σ Item :=
  let idAndPool := w.idPool.get
  let subs := w.subscribers.subscribe idAndPool.1 sub
  { w with idPool := idAndPool.2, subscribers := subs,
           metricsLog := w.metricsLog ++
             [MetricsEvent.setTotalSubscriberCount subs.subscriberCount] }

/-- `Worker::unsubscribe`. -/
def unsubscribeOp (w : Worker σ Item) (id : SubId) : Worker σ Item :=
  let subs := w.subscribers.unsubscribe id
  { w with subscribers := subs,
           metricsLog := w.metricsLog ++
             [MetricsEvent.setTotalSubscriberCount subs.subscriberCount],
           idPool := w.idPool.recycle id }

/-- `Worker::follow`. -/
def follow (w : Worker σ Item) (id : SubId) (bossName : BossName) :
    Worker σ Item :=
  match w.subscribers.get id with
  | none => w
  | some subscriber =>
    match alookup w.bosses bossName with
    | some _ =>
      let bosses' := aupdate w.bosses bossName
        (fun e => { e with broadcast := e.broadcast.subscribe id subscriber })
      let cnt := match alookup bosses' bossName with
        | some e => e.broadcast.subscriberCount
        | none => 0
      { w with bosses := bosses',
               metricsLog := w.metricsLog ++
                 [MetricsEvent.setFollowerCount bossName cnt] }
    | none =>
      match alookup w.requestedBosses bossName with
      | some _ =>
        { w with requestedBosses :=
            (aupdate w.requestedBosses bossName
              (fun b => b.subscribe id subscriber)) }
      | none =>
        { w with requestedBosses := w.requestedBosses ++
            [(bossName, (Broadcast.new σ).subscribe id subscriber)] }

/-- `Worker::unfollow`. -/
def unfollow (w : Worker σ Item) (id : SubId) (bossName : BossName) :
    Worker σ Item :=
  match alookup w.bosses bossName with
  | some _ =>
    let bosses' := aupdate w.bosses bossName
      (fun e => { e with broadcast := e.broadcast.unsubscribe id })
    let cnt := match alookup bosses' bossName with
      | some e => e.broadcast.subscriberCount
      | none => 0
    { w with bosses := bosses',
             metricsLog := w.metricsLog ++
               [MetricsEvent.setFollowerCount bossName cnt] }
  | none =>
    match alookup w.requestedBosses bossName with
    | some g =>
      if (g.unsubscribe id).isEmpty then
        { w with requestedBosses := aremove w.requestedBosses bossName }
      else
        { w with requestedBosses :=
            (aupdate w.requestedBosses bossName
              (fun b => b.unsubscribe id)) }
    | none => w

/-- The loop at the end of `Worker::handle_raid_info` that forwards the
adapted tweet to each translated boss's followers and pushes the tweet into
that boss's recent buffer. -/
def sendToTranslations (sendImpl : σ → Item → Option σ) (mapped : Option Item)
    (tweet : RaidTweet) :
    List BossName → List (BossName × RaidBossEntry σ) →
    Option (List (BossName × RaidBossEntry σ))
  | [], bosses => some bosses
  | name :: rest, bosses =>
    match alookup bosses name with
    | none => sendToTranslations sendImpl mapped tweet rest bosses
    | some e =>
      let e1 := { e with broadcast := Broadcast.maybeSend sendImpl e.broadcast mapped }
      match e1.recentTweets.push tweet with
      | none => none
      | some buf =>
        sendToTranslations sendImpl mapped tweet rest
          (aupdate bosses name (fun _ => { e1 with recentTweets := buf }))

/-- The tail of the occupied branch of `Worker::handle_raid_info`, after
the entry has been updated with the new `last_seen`, the tweet has been
offered to its followers and the image/hash-request step has been applied
(`value3` is the updated entry, `hashReqs` the hash request it queued):
push the tweet into the entry's recent buffer, then forward the adapted
tweet to every translated boss's followers and recent buffer. -/
def handleRaidInfoOccupied (w0 : Worker σ Item) (mapped : Option Item)
    (info : RaidInfo) (value3 : RaidBossEntry σ)
    (hashReqs : List (BossName × BossImageUrl)) :
    Option (Worker σ Item × List Message) :=
  match value3.recentTweets.push info.tweet with
  | none => none
  | some buf =>
    match sendToTranslations w0.sendImpl mapped info.tweet
        value3.bossData.boss.translations
        (aupdate w0.bosses info.tweet.bossName
          (fun _ => { value3 with recentTweets := buf })) with
    | none => none
    | some bosses2 =>
      some ({ w0 with bosses := bosses2,
                      hashRequests := w0.hashRequests ++ hashReqs }, [])

/-- `Worker::handle_raid_info`.  `none` models a panic inside
`CircularBuffer::push` (possible only when the configured history size is
zero). -/
def handleRaidInfo (w : Worker σ Item) (info : RaidInfo) :
    Option (Worker σ Item × List Message) :=
  let w0 := { w with metricsLog := w.metricsLog ++
      [MetricsEvent.incTweetCount info.tweet.bossName] }
  let mapped := w.filterMapMessage (Message.tweet info.tweet)
  match alookup w0.bosses info.tweet.bossName with
  | some value =>
    let value1 := { value with bossData.lastSeen := info.tweet.createdAt }
    let value2 := { value1 with
      broadcast := Broadcast.maybeSend w.sendImpl value1.broadcast mapped }
    let imgStep :=
      if value2.bossData.boss.image = none then
        match info.image with
        | some imageUrl =>
          ({ value2 with bossData.boss.image := some imageUrl },
           [(value2.bossData.boss.name, imageUrl)])
        | none => (value2, ([] : List (BossName × BossImageUrl)))
      else (value2, [])
    handleRaidInfoOccupied w0 mapped info imgStep.1 imgStep.2
  | none =>
    let pendingGroup := (alookup w0.requestedBosses info.tweet.bossName).getD
      (Broadcast.new σ)
    let requested1 := aremove w0.requestedBosses info.tweet.bossName
    let boss : RaidBoss :=
      { level := (parseLevel info.tweet.bossName).getD defaultBossLevel,
        name := info.tweet.bossName,
        image := info.image,
        language := info.tweet.language,
        translations := [] }
    let bossMsg := Message.bossUpdate boss
    let subs1 := Broadcast.maybeSend w.sendImpl w0.subscribers
      (w.filterMapMessage bossMsg)
    let pending1 := Broadcast.maybeSend w.sendImpl pendingGroup mapped
    let hashReqs : List (BossName × BossImageUrl) :=
      match boss.image with
      | some imageUrl => [(boss.name, imageUrl)]
      | none => []
    match (CircularBuffer.withCapacity RaidTweet w0.tweetHistorySize).push
        info.tweet with
    | none => none
    | some recent =>
      let entry : RaidBossEntry σ :=
        { bossData := { boss := boss, lastSeen := info.tweet.createdAt,
                        imageHash := none },
          recentTweets := recent,
          broadcast := pending1 }
      some (({ w0 with bosses := w0.bosses ++ [(info.tweet.bossName, entry)],
                       subscribers := subs1,
                       requestedBosses := requested1,
                       hashRequests := w0.hashRequests ++ hashReqs
             }).updateCachedBossList,
            [bossMsg])

end Worker

/-- The merged event type handled by `Worker::handle_event`
(src/client/worker.rs; reply channels are dropped, since replying does not
change the worker state). -/
inductive Event (σ : Type) where
  | newRaidInfo (info : RaidInfo)
  | newImageHash (bossName : BossName) (imageHash : ImageHash)
  | subscriberFollow (id : SubId) (bossName : BossName)
  | subscriberUnfollow (id : SubId) (bossName : BossName)
  | subscriberGetBosses (id : SubId)
  | subscriberGetTweets (id : SubId) (bossName : BossName)
  | subscriberHeartbeat
  | subscriberSubscribe (subscriber : σ)
  | subscriberUnsubscribe (id : SubId)
  | clientGetBosses
  | clientGetTweets (bossName : BossName)
  | clientExportMetadata
  | clientExportMetrics
  | clientRemoveBosses (pred : RaidBossMetadata → Bool)
  | clientReadError

namespace Worker

/-- `Worker::handle_event`.  The second component is the list of
pre-adapter messages offered to the global subscriber group during the
event; `none` models a panic (only possible inside `handle_raid_info`). -/
def handleEvent (w : Worker σ Item) :
    Event σ → Option (Worker σ Item × List Message)
  | .newRaidInfo info => w.handleRaidInfo info
  | .newImageHash bossName imageHash => some (w.handleImageHash bossName imageHash)
  | .subscriberFollow id bossName => some (w.follow id bossName, [])
  | .subscriberUnfollow id bossName => some (w.unfollow id bossName, [])
  | .subscriberGetBosses id =>
    some ({ w with subscribers :=
        Broadcast.sendToOne w.sendImpl w.subscribers id w.cachedBossList }, [])
  | .subscriberGetTweets id bossName =>
    match w.subscribers.get id with
    | none => some (w, [])
    | some _ =>
      let tweets := match alookup w.bosses bossName with
        | some e => e.recentTweets.asUnorderedSlice
        | none => []
      let msg := w.filterMapMessage (Message.tweetList tweets)
      some ({ w with subscribers :=
          Broadcast.sendToOne w.sendImpl w.subscribers id msg }, [])
  | .subscriberHeartbeat =>
    some ({ w with subscribers :=
        Broadcast.maybeSend w.sendImpl w.subscribers w.heartbeat }, [])
  | .subscriberSubscribe sub => some (w.subscribeOp sub, [])
  | .subscriberUnsubscribe id => some (w.unsubscribeOp id, [])
  | .clientGetBosses => some (w, [])
  | .clientGetTweets _ => some (w, [])
  | .clientExportMetadata => some (w, [])
  | .clientExportMetrics => some (w, [])
  | .clientRemoveBosses pred => some (w.removeBosses pred)
  | .clientReadError => some (w, [])

/-- Handle a whole sequence of events, stopping at the first panic. -/
def processEvents (w : Worker σ Item) (events : List (Event σ)) :
    Option (Worker σ Item) :=
  events.foldlM (fun w e => (handleEvent w e).map Prod.fst) w

end Worker

/-! ## Builder (src/client/builder.rs) -/

/-- The configuration held by `ClientBuilder` that is relevant to the
worker (stream, image hasher and metrics collaborators are external). -/
structure ClientBuilder (σ Item : Type) where
  sendImpl : σ → Item → Option σ
  filterMapMessage : Message → Option Item
  historySize : Nat
  bosses : List RaidBossMetadata

namespace ClientBuilder

/-- `ClientBuilder::with_history_size`: stores the size unchecked. -/
def withHistorySize (b : ClientBuilder σ Item) (size : Nat) :
    ClientBuilder σ Item :=
  { b with historySize := size }

/-- `ClientBuilder::with_bosses`. -/
def withBosses (b : ClientBuilder σ Item) (bosses : List RaidBossMetadata) :
    ClientBuilder σ Item :=
  { b with bosses := bosses }

/-- `ClientBuilder::build`: the construction of the `Worker`.  It is total:
the builder performs no validation and cannot fail. -/
def build (b : ClientBuilder σ Item) : Worker σ Item :=
  let bossEntries := b.bosses.map (fun bossData =>
    ((bossData.boss.name : BossName),
     ({ bossData := bossData,
        broadcast := Broadcast.new σ,
        recentTweets := CircularBuffer.withCapacity RaidTweet b.historySize } :
       RaidBossEntry σ)))
  Worker.updateCachedBossList
    { sendImpl := b.sendImpl,
      filterMapMessage := b.filterMapMessage,
      bosses := bossEntries,
      tweetHistorySize := b.historySize,
      requestedBosses := [],
      subscribers := Broadcast.new σ,
      cachedBossList := b.filterMapMessage (Message.bossList []),
      heartbeat := b.filterMapMessage Message.heartbeat,
      idPool := IdPool.new,
      hashRequests := [],
      metricsLog := [] }

end ClientBuilder

/-! ## Hash pipeline (src/image_hash/mod.rs)

The dedup bookkeeping of the pipeline, as a step machine over the channel
contents and the `outstanding` set.  `queue` is the unbounded request
channel, `outstanding` the `HashSet<BossName>` owned by `Inner`, `inFlight`
the names of the fetch futures currently running inside the
`BufferUnordered` combinator, and `delivered` the results handed
downstream by `ImageHashReceiver::poll`, in order. -/

structure HashPipeline where
  queue : List (BossName × String)
  outstanding : List BossName
  inFlight : List BossName
  delivered : List BossName
deriving DecidableEq, Repr

namespace HashPipeline

/-- The state right after `image_hash::channel`. -/
def init : HashPipeline :=
  { queue := [], outstanding := [], inFlight := [], delivered := [] }

/-- `ImageHashSender::request`: enqueue on the unbounded channel. -/
def requestStep (s : HashPipeline) (bossName : BossName) (uri : String) :
    HashPipeline :=
  { s with queue := s.queue ++ [(bossName, uri)] }

/-- One `Inner::poll`, performed by `BufferUnordered` while fewer than
`concurrency` fetches are running: requests whose name is already
outstanding are popped from the channel and silently dropped; the first
request with a fresh name is marked outstanding and its fetch future is
started. -/
def startStep (concurrency : Nat) (s : HashPipeline) : HashPipeline :=
  if s.inFlight.length < concurrency then
    match s.queue.dropWhile (fun p => p.1 ∈ s.outstanding) with
    | [] => { s with queue := [] }
    | (bossName, _) :: rest =>
      { s with queue := rest,
               outstanding := bossName :: s.outstanding,
               inFlight := s.inFlight ++ [bossName] }
  else s

/-- A fetch future resolving successfully and its result being pulled by
`ImageHashReceiver::poll`: the name is removed from `outstanding` and the
result is yielded downstream.  A name that is not in flight cannot
complete; such a step is a no-op. -/
def completeStep (s : HashPipeline) (bossName : BossName) : HashPipeline :=
  if bossName ∈ s.inFlight then
    { s with inFlight := s.inFlight.erase bossName,
             outstanding := s.outstanding.erase bossName,
             delivered := s.delivered ++ [bossName] }
  else s

/-- A fetch future failing (network error, decode error): the future
disappears from the `BufferUnordered` set, no result reaches the receiver,
and the name stays in `outstanding`. -/
def failStep (s : HashPipeline) (bossName : BossName) : HashPipeline :=
  if bossName ∈ s.inFlight then
    { s with inFlight := s.inFlight.erase bossName }
  else s

/-- The interleaving alphabet for the pipeline. -/
inductive PipeEvent where
  | request (bossName : BossName) (uri : String)
  | start
  | complete (bossName : BossName)
  | fail (bossName : BossName)

/-- One interleaving step. -/
def step (concurrency : Nat) (s : HashPipeline) : PipeEvent → HashPipeline
  | .request bossName uri => s.requestStep bossName uri
  | .start => startStep concurrency s
  | .complete bossName => s.completeStep bossName
  | .fail bossName => s.failStep bossName

/-- Run an interleaving from the initial state. -/
def run (concurrency : Nat) (events : List PipeEvent) : HashPipeline :=
  events.foldl (step concurrency) init

end HashPipeline

/-! ## Lemmas about `Broadcast::send` -/

namespace Broadcast

theorem sendAll_invoked {σ Item : Type} (sendImpl : σ → Item → Option σ)
    (msg : Item) (l : List (SubId × σ)) :
    (sendAll sendImpl msg l).2 = l.map Prod.fst := by
  induction l with
  | nil => rfl
  | cons p rest ih =>
    obtain ⟨id, s⟩ := p
    cases h : sendImpl s msg <;> simp [sendAll, h, ih]

theorem sendAll_keys_subset {σ Item : Type} (sendImpl : σ → Item → Option σ)
    (msg : Item) (l : List (SubId × σ)) :
    ∀ id ∈ (sendAll sendImpl msg l).1.map Prod.fst, id ∈ l.map Prod.fst := by
  induction l with
  | nil => simp [sendAll]
  | cons p rest ih =>
    obtain ⟨j, t⟩ := p
    intro id hid
    cases h : sendImpl t msg with
    | none =>
      simp only [sendAll, h] at hid
      simpa using Or.inr (ih id hid)
    | some s' =>
      simp only [sendAll, h, List.map_cons, List.mem_cons] at hid
      rcases hid with h1 | h2
      · simp [h1]
      · simpa using Or.inr (ih id (by simpa using h2))

theorem sendAll_mem_of_some {σ Item : Type} (sendImpl : σ → Item → Option σ)
    (msg : Item) (l : List (SubId × σ)) (id : SubId) (s s' : σ)
    (hmem : (id, s) ∈ l) (hsend : sendImpl s msg = some s') :
    (id, s') ∈ (sendAll sendImpl msg l).1 := by
  induction l with
  | nil => cases hmem
  | cons p rest ih =>
    obtain ⟨j, t⟩ := p
    rcases List.mem_cons.mp hmem with h1 | h2
    · obtain ⟨hj, ht⟩ := Prod.mk.injEq .. ▸ h1
      subst hj; subst ht
      simp [sendAll, hsend]
    · cases h : sendImpl t msg <;> simp [sendAll, h, ih h2]

theorem sendAll_mem_result {σ Item : Type} (sendImpl : σ → Item → Option σ)
    (msg : Item) (l : List (SubId × σ)) (id : SubId) (s' : σ)
    (hmem : (id, s') ∈ (sendAll sendImpl msg l).1) :
    ∃ s, (id, s) ∈ l ∧ sendImpl s msg = some s' := by
  induction l with
  | nil => cases hmem
  | cons p rest ih =>
    obtain ⟨j, t⟩ := p
    cases h : sendImpl t msg with
    | none =>
      simp only [sendAll, h] at hmem
      obtain ⟨s, hs, hsend⟩ := ih hmem
      exact ⟨s, List.mem_cons_of_mem _ hs, hsend⟩
    | some t' =>
      simp only [sendAll, h, List.mem_cons] at hmem
      rcases hmem with h1 | h2
      · obtain ⟨hj, ht⟩ := Prod.mk.injEq .. ▸ h1
        subst hj
        exact ⟨t, List.mem_cons_self .., by rw [h, ht]⟩
      · obtain ⟨s, hs, hsend⟩ := ih h2
        exact ⟨s, List.mem_cons_of_mem _ hs, hsend⟩

theorem send_snd_eq {σ Item : Type} (sendImpl : σ → Item → Option σ)
    (b : Broadcast σ) (msg : Item) :
    (send sendImpl b msg).2 = (sendAll sendImpl msg b.subscribers).2 := rfl

theorem send_fst_subscribers {σ Item : Type} (sendImpl : σ → Item → Option σ)
    (b : Broadcast σ) (msg : Item) :
    (send sendImpl b msg).1.subscribers = (sendAll sendImpl msg b.subscribers).1 := rfl

theorem sendAll_not_mem_of_none {σ Item : Type} (sendImpl : σ → Item → Option σ)
    (msg : Item) (l : List (SubId × σ)) (i : SubId) (s : σ)
    (hNodup : (l.map Prod.fst).Nodup)
    (hmem : (i, s) ∈ l) (hsend : sendImpl s msg = none) :
    i ∉ (sendAll sendImpl msg l).1.map Prod.fst := by
  intro hIn
  obtain ⟨q, hmem2, hfst⟩ := List.mem_map.mp hIn
  obtain ⟨s0, hs0, hsend0⟩ := sendAll_mem_result sendImpl msg l i q.2
    (by rwa [show (i, q.2) = q from Prod.ext hfst.symm rfl])
  have hs0eq : s0 = s := by
    have h2 := List.inj_on_of_nodup_map hNodup hs0 hmem rfl
    exact congrArg Prod.snd h2
  rw [hs0eq, hsend] at hsend0
  cases hsend0

end Broadcast

/-- **C8.** Broadcast eviction: one `Broadcast::send(message)` invokes each
currently-registered subscriber's send exactly once (in particular at most
once); the surviving registrations are exactly those whose send succeeded
(with their updated state), and those whose send failed are removed in the
same pass; consequently a subscriber whose send always fails is absent
after the first message and is never invoked by a later send. -/
theorem C8_broadcast_eviction {σ Item : Type} (sendImpl : σ → Item → Option σ)
    (b : Broadcast σ) (msg : Item)
    (hNodup : (b.subscribers.map Prod.fst).Nodup) :
    ((Broadcast.send sendImpl b msg).2 = b.subscribers.map Prod.fst) ∧
    (∀ id, ((Broadcast.send sendImpl b msg).2.count id) ≤ 1) ∧
    (∀ id s, (id, s) ∈ b.subscribers → sendImpl s msg = none →
      id ∉ ((Broadcast.send sendImpl b msg).1.subscribers.map Prod.fst)) ∧
    (∀ id s s', (id, s) ∈ b.subscribers → sendImpl s msg = some s' →
      (id, s') ∈ (Broadcast.send sendImpl b msg).1.subscribers) ∧
    (∀ id s', (id, s') ∈ (Broadcast.send sendImpl b msg).1.subscribers →
      ∃ s, (id, s) ∈ b.subscribers ∧ sendImpl s msg = some s') ∧
    (∀ id s, (id, s) ∈ b.subscribers → (∀ m, sendImpl s m = none) →
      ∀ m2, id ∉ (Broadcast.send sendImpl (Broadcast.send sendImpl b msg).1 m2).2) := by
  refine ⟨?_, ?_, ?_, ?_, ?_, ?_⟩
  · exact Broadcast.sendAll_invoked sendImpl msg b.subscribers
  · intro id
    rw [Broadcast.send_snd_eq, Broadcast.sendAll_invoked sendImpl msg b.subscribers]
    exact List.nodup_iff_count_le_one.mp hNodup id
  · intro id s hmem hsend
    exact Broadcast.sendAll_not_mem_of_none sendImpl msg b.subscribers id s
      hNodup hmem hsend
  · intro id s s' hmem hsend
    exact Broadcast.sendAll_mem_of_some sendImpl msg b.subscribers id s s'
      hmem hsend
  · intro id s' hmem
    exact Broadcast.sendAll_mem_result sendImpl msg b.subscribers id s' hmem
  · intro id s hmem halways m2
    rw [Broadcast.send_snd_eq, Broadcast.sendAll_invoked sendImpl m2]
    rw [Broadcast.send_fst_subscribers]
    exact Broadcast.sendAll_not_mem_of_none sendImpl msg b.subscribers id s
      hNodup hmem (halways msg)

/-- Witness for C8 at a concrete broadcast group: subscriber state `Bool`,
send succeeding exactly on `true` states. -/
theorem C8_broadcast_eviction_witness :
    (((⟨[(0, true), (1, false)]⟩ : Broadcast Bool).subscribers.map Prod.fst).Nodup) ∧
    ((Broadcast.send (fun s (_ : Nat) => if s then some s else none)
        (⟨[(0, true), (1, false)]⟩ : Broadcast Bool) 5).2 = [0, 1]) := by
  refine ⟨by decide, ?_⟩
  have h := C8_broadcast_eviction (fun s (_ : Nat) => if s then some s else none)
    (⟨[(0, true), (1, false)]⟩ : Broadcast Bool) 5 (by decide)
  exact h.1

/-! ## Id-pool trace semantics (for C7) -/

/-- One operation on the id pool, as issued by the worker. -/
inductive PoolOp where
  | get
  | recycle (id : SubId)

/-- The pool together with the set of ids currently outstanding (obtained
from `get` and not yet recycled). -/
structure PoolState where
  pool : IdPool
  outstanding : List SubId

/-- Apply one operation. -/
def poolStep (s : PoolState) : PoolOp → PoolState
  | .get =>
    let r := s.pool.get
    { pool := r.2, outstanding := r.1 :: s.outstanding }
  | .recycle id =>
    { pool := s.pool.recycle id, outstanding := s.outstanding.erase id }

/-- The precondition of src/id_pool.rs: `recycle(id)` must only be called
for a currently-outstanding id. -/
def poolValidB (s : PoolState) : List PoolOp → Bool
  | [] => true
  | op :: rest =>
    (match op with
     | .recycle id => decide (id ∈ s.outstanding)
     | .get => true) && poolValidB (poolStep s op) rest

/-- Run a whole operation sequence. -/
def poolRun (s : PoolState) : List PoolOp → PoolState :=
  List.foldl poolStep s

/-- The state at program start: `IdPool::new`, nothing outstanding. -/
def initPoolState : PoolState :=
  { pool := IdPool.new, outstanding := [] }

/-- The inductive invariant of the pool: outstanding ids and the free list
are duplicate-free and disjoint, and both are bounded by `max_id`. -/
def PoolInv (s : PoolState) : Prop :=
  s.outstanding.Nodup ∧ s.pool.available.Nodup ∧
  (∀ x ∈ s.outstanding, x ∉ s.pool.available) ∧
  (∀ x ∈ s.outstanding, x < s.pool.maxId) ∧
  (∀ x ∈ s.pool.available, x < s.pool.maxId)

theorem poolStep_inv (s : PoolState) (op : PoolOp) (hInv : PoolInv s)
    (hPre : match op with
      | .recycle id => id ∈ s.outstanding
      | .get => True) :
    PoolInv (poolStep s op) := by
  obtain ⟨hOut, hAvail, hDisj, hOutLt, hAvailLt⟩ := hInv
  cases op with
  | get =>
    have hrw : poolStep s PoolOp.get =
        { pool := (s.pool.get).2, outstanding := (s.pool.get).1 :: s.outstanding } := rfl
    cases hP : s.pool.available with
    | nil =>
      have hget : s.pool.get =
          (s.pool.maxId, { maxId := s.pool.maxId + 1, available := [] }) := by
        simp [IdPool.get, hP]
      rw [hrw, hget]
      refine ⟨?_, List.nodup_nil, ?_, ?_, ?_⟩
      · exact List.nodup_cons.mpr
          ⟨fun hmem => absurd (hOutLt _ hmem) (lt_irrefl _), hOut⟩
      · intro x hx hmem
        cases hmem
      · intro x hx
        rcases List.mem_cons.mp hx with h | h
        · subst h; exact Nat.lt_succ_self _
        · exact Nat.lt_succ_of_lt (hOutLt x h)
      · intro x hx
        cases hx
    | cons a rest =>
      have hget : s.pool.get =
          (a, { maxId := s.pool.maxId, available := rest }) := by
        simp [IdPool.get, hP]
      rw [hrw, hget]
      rw [hP] at hAvail hAvailLt
      refine ⟨?_, (List.nodup_cons.mp hAvail).2, ?_, ?_, ?_⟩
      · exact List.nodup_cons.mpr
          ⟨fun hmem => hDisj a hmem (hP ▸ List.mem_cons_self ..), hOut⟩
      · intro x hx
        rcases List.mem_cons.mp hx with h | h
        · subst h; exact (List.nodup_cons.mp hAvail).1
        · intro hmem
          exact hDisj x h (hP ▸ List.mem_cons_of_mem _ hmem)
      · intro x hx
        rcases List.mem_cons.mp hx with h | h
        · subst h
          exact hAvailLt x (List.mem_cons_self ..)
        · exact hOutLt x h
      · intro x hx
        exact hAvailLt x (List.mem_cons_of_mem _ hx)
  | recycle id =>
    simp only at hPre
    refine ⟨hOut.erase id, ?_, ?_, ?_, ?_⟩
    · exact List.nodup_cons.mpr ⟨fun hmem => hDisj id hPre hmem, hAvail⟩
    · intro x hx
      have hxOut : x ∈ s.outstanding := List.mem_of_mem_erase hx
      have hxNe : x ≠ id := (List.Nodup.mem_erase_iff hOut).mp hx |>.1
      intro hmem
      rcases List.mem_cons.mp hmem with h | h
      · exact hxNe h
      · exact hDisj x hxOut h
    · intro x hx
      exact hOutLt x (List.mem_of_mem_erase hx)
    · intro x hx
      rcases List.mem_cons.mp hx with h | h
      · subst h; exact hOutLt x hPre
      · exact hAvailLt x h

theorem poolRun_inv (ops : List PoolOp) (s : PoolState) (hInv : PoolInv s)
    (hValid : poolValidB s ops = true) : PoolInv (poolRun s ops) := by
  induction ops generalizing s with
  | nil => exact hInv
  | cons op rest ih =>
    simp only [poolValidB, Bool.and_eq_true] at hValid
    refine ih (poolStep s op) (poolStep_inv s op hInv ?_) hValid.2
    cases op with
    | get => trivial
    | recycle id => simpa using hValid.1

/-- **C7.** Under the precondition that `recycle` is only called on
currently-outstanding ids, the outstanding ids are pairwise distinct after
any operation sequence (and hence at all times, since every prefix of a
valid sequence is valid); and immediately after `recycle(x)` the next `get`
returns `x` — the free list is LIFO and preferred over allocating a fresh
id. -/
theorem C7_id_pool_distinct_lifo (ops : List PoolOp)
    (hValid : poolValidB initPoolState ops = true) :
    (poolRun initPoolState ops).outstanding.Nodup ∧
    (∀ (p : IdPool) (x : SubId), ((p.recycle x).get).1 = x) := by
  constructor
  · have hInit : PoolInv initPoolState := by
      refine ⟨List.nodup_nil, List.nodup_nil, ?_, ?_, ?_⟩ <;> intro x hx <;> cases hx
    exact (poolRun_inv ops initPoolState hInit hValid).1
  · intro p x
    rfl

/-- Witness for C7: the operation sequence of the source's own unit test
(`use_id` in src/id_pool.rs). -/
theorem C7_id_pool_distinct_lifo_witness :
    (poolValidB initPoolState
      [PoolOp.get, PoolOp.get, PoolOp.get, PoolOp.recycle 1,
       PoolOp.recycle 0] = true) ∧
    (poolRun initPoolState
      [PoolOp.get, PoolOp.get, PoolOp.get, PoolOp.recycle 1,
       PoolOp.recycle 0]).outstanding.Nodup := by
  refine ⟨by decide, ?_⟩
  exact (C7_id_pool_distinct_lifo
    [PoolOp.get, PoolOp.get, PoolOp.get, PoolOp.recycle 1, PoolOp.recycle 0]
    (by decide)).1

/-! ## Ring-buffer characterization (for C5 and C9) -/

/-- The exact buffer contents after pushing the sequence `xs` into an empty
ring of capacity `c`: for at most `c` pushes the pushes in order; afterwards
the last `c` pushes rotated so that the `xs.length % c` most recent ones sit
at the front of the vector. -/
def ringList (c : Nat) (xs : List α) : List α :=
  if xs.length ≤ c then xs
  else
    xs.drop (xs.length - xs.length % c) ++
      (xs.take (xs.length - xs.length % c)).drop (xs.length - c)

theorem set_append_length {α : Type} (A B : List α) (x : α) :
    (A ++ B).set A.length x = A ++ B.set 0 x := by
  induction A with
  | nil => rfl
  | cons a rest ih => simp [List.set, ih]

theorem ringList_length {α : Type} (c : Nat) (hc : 1 ≤ c) (xs : List α) :
    (ringList c xs).length = min xs.length c := by
  unfold ringList
  by_cases h : xs.length ≤ c
  · simp [h, Nat.min_eq_left h]
  · push_neg at h
    have hr : xs.length % c < c := Nat.mod_lt _ hc
    have hrle : xs.length % c ≤ xs.length := Nat.mod_le _ _
    simp only [if_neg (not_le.mpr h), List.length_append, List.length_drop,
      List.length_take]
    omega

theorem drop_append_le {α : Type} (l1 l2 : List α) (k : Nat)
    (h : k ≤ l1.length) : (l1 ++ l2).drop k = l1.drop k ++ l2 := by
  rw [List.drop_append_eq_append_drop, Nat.sub_eq_zero_of_le h, List.drop_zero]

theorem take_append_le {α : Type} (l1 l2 : List α) (k : Nat)
    (h : k ≤ l1.length) : (l1 ++ l2).take k = l1.take k := by
  rw [List.take_append_eq_append_take, Nat.sub_eq_zero_of_le h, List.take_zero,
    List.append_nil]

theorem push_ring {α : Type} (c : Nat) (hc : 1 ≤ c) (ys : List α) (x : α) :
    CircularBuffer.push ⟨c, ringList c ys, ys.length % c⟩ x =
      some ⟨c, ringList c (ys ++ [x]), (ys.length + 1) % c⟩ := by
  by_cases hlt : ys.length < c
  · -- still filling up: `Vec::push`
    have hbuf : ringList c ys = ys := by
      unfold ringList
      simp [Nat.le_of_lt hlt]
    have hbuf' : ringList c (ys ++ [x]) = ys ++ [x] := by
      unfold ringList
      simp only [List.length_append]
      rw [if_pos (by simp; omega)]
    rw [CircularBuffer.push]
    simp only [hbuf, hbuf']
    rw [if_pos hlt]
    have hmod : ys.length % c = ys.length := Nat.mod_eq_of_lt hlt
    simp [hmod]
  · -- full buffer: overwrite the slot at the cursor
    push_neg at hlt
    set n := ys.length with hn
    set r := n % c with hrdef
    have hr : r < c := Nat.mod_lt _ hc
    have hrle : r ≤ n := Nat.mod_le _ _
    have hlen : (ringList c ys).length = c := by
      rw [ringList_length c hc ys, ← hn, Nat.min_eq_right hlt]
    have hA : ringList c ys =
        ys.drop (n - r) ++ (ys.take (n - r)).drop (n - c) := by
      unfold ringList
      rw [← hn, ← hrdef]
      rcases eq_or_lt_of_le hlt with heq | hlt2
      · rw [if_pos (le_of_eq heq.symm)]
        have hr0 : r = 0 := by rw [hrdef, heq, Nat.mod_self]
        have h1 : n - c = 0 := by omega
        rw [hr0, Nat.sub_zero, h1, List.drop_zero, hn, List.drop_length,
          List.take_length, List.nil_append]
      · rw [if_neg (by omega)]
    have hlenA : (ys.drop (n - r)).length = r := by
      rw [List.length_drop]; omega
    have hlenB : ((ys.take (n - r)).drop (n - c)).length = c - r := by
      rw [List.length_drop, List.length_take]; omega
    have hnext : (r + 1) % c = (n + 1) % c := by
      rw [hrdef, Nat.mod_add_mod]
    have hlenys : (ys ++ [x]).length = n + 1 := by simp
    have hRHSunfold : ringList c (ys ++ [x]) =
        (ys ++ [x]).drop (n + 1 - (n + 1) % c) ++
          ((ys ++ [x]).take (n + 1 - (n + 1) % c)).drop (n + 1 - c) := by
      unfold ringList
      rw [hlenys, if_neg (by omega)]
    have hset : (ringList c ys).set r x = ringList c (ys ++ [x]) := by
      have hsetapp := set_append_length (ys.drop (n - r))
        ((ys.take (n - r)).drop (n - c)) x
      rw [hlenA] at hsetapp
      rw [hA, hsetapp]
      by_cases hfull : r + 1 = c
      · -- the cursor wraps: the overwritten slot closes the cycle
        have hmod0 : (n + 1) % c = 0 := by
          rw [← hnext, hfull, Nat.mod_self]
        obtain ⟨b, hb⟩ := List.length_eq_one.mp
          (show ((ys.take (n - r)).drop (n - c)).length = 1 by omega)
        have hdropfull : (ys ++ [x]).drop (n + 1) = [] := by
          rw [← hlenys, List.drop_length]
        have htakefull : (ys ++ [x]).take (n + 1) = ys ++ [x] := by
          rw [← hlenys, List.take_length]
        have hdrop2 : (ys ++ [x]).drop (n + 1 - c) =
            ys.drop (n + 1 - c) ++ [x] :=
          drop_append_le _ _ _ (by omega)
        rw [hb, hRHSunfold, hmod0, Nat.sub_zero, hdropfull, htakefull, hdrop2,
          List.nil_append]
        have hidx : n - r = n + 1 - c := by omega
        rw [hidx]
        rfl
      · -- the cursor advances within the cycle
        have hmodr : (n + 1) % c = r + 1 := by
          rw [← hnext]
          exact Nat.mod_eq_of_lt (by omega)
        have hidx : n + 1 - (r + 1) = n - r := by omega
        have hdrop1 : (ys ++ [x]).drop (n - r) = ys.drop (n - r) ++ [x] :=
          drop_append_le _ _ _ (by omega)
        have htake1 : (ys ++ [x]).take (n - r) = ys.take (n - r) :=
          take_append_le _ _ _ (by omega)
        have hBne : (ys.take (n - r)).drop (n - c) ≠ [] := by
          intro hnil
          rw [hnil] at hlenB
          simp at hlenB
          omega
        obtain ⟨b, bs, hb⟩ := List.exists_cons_of_ne_nil hBne
        have hbs : bs = (ys.take (n - r)).drop (n + 1 - c) := by
          have htail : ((ys.take (n - r)).drop (n - c)).tail =
              (ys.take (n - r)).drop (n - c + 1) := List.tail_drop ..
          rw [hb] at htail
          simp only [List.tail_cons] at htail
          rw [htail]
          congr 1
          omega
        rw [hb, hRHSunfold, hmodr, hidx, hdrop1, htake1, ← hbs]
        simp [List.set]
    simp only [CircularBuffer.push, hlen]
    rw [if_neg (lt_irrefl c), if_pos hr, if_neg (by omega : ¬ c = 0),
      hset, hnext]

theorem pushAll_ring {α : Type} (c : Nat) (hc : 1 ≤ c) (xs ys : List α) :
    CircularBuffer.pushAll ⟨c, ringList c ys, ys.length % c⟩ xs =
      some ⟨c, ringList c (ys ++ xs), (ys.length + xs.length) % c⟩ := by
  induction xs generalizing ys with
  | nil => simp [CircularBuffer.pushAll]
  | cons x rest ih =>
    rw [CircularBuffer.pushAll, List.foldlM_cons, push_ring c hc ys x]
    have h2 := ih (ys ++ [x])
    rw [CircularBuffer.pushAll] at h2
    simp only [List.length_append, List.length_singleton] at h2
    simpa [List.append_assoc, Nat.add_assoc, Nat.add_comm 1 rest.length] using h2

theorem ringList_perm {α : Type} (c : Nat) (hc : 1 ≤ c) (xs : List α) :
    (ringList c xs).Perm (xs.drop (xs.length - min xs.length c)) := by
  unfold ringList
  by_cases h : xs.length ≤ c
  · rw [if_pos h, Nat.min_eq_left h, Nat.sub_self, List.drop_zero]
  · push_neg at h
    rw [if_neg (by omega), Nat.min_eq_right (le_of_lt h)]
    set n := xs.length with hn
    set r := n % c with hrdef
    have hr : r < c := Nat.mod_lt _ hc
    have hrle : r ≤ n := Nat.mod_le _ _
    have hsplit : xs.take (n - r) ++ xs.drop (n - r) = xs :=
      List.take_append_drop _ _
    have hlenT : (xs.take (n - r)).length = n - r := by
      rw [List.length_take]; omega
    have hdrop : xs.drop (n - c) =
        (xs.take (n - r)).drop (n - c) ++ xs.drop (n - r) := by
      conv_lhs => rw [← hsplit]
      rw [List.drop_append_eq_append_drop, hlenT,
        show n - c - (n - r) = 0 from by omega, List.drop_zero]
    rw [hdrop]
    exact List.perm_append_comm

/-- **C5 (amended).** For every positive capacity `c` and every sequence of
pushes `xs`, no push panics, the stored elements are a permutation (equal
multiset) of the last `min (length xs) c` pushed items, and the buffer
never holds more than `c` elements.  (For capacity `0` the very first push
panics; see the counterexample.) -/
theorem C5_ring_buffer_contents {α : Type} (c : Nat) (hc : 1 ≤ c)
    (xs : List α) :
    ∃ b, CircularBuffer.pushAll (CircularBuffer.withCapacity α c) xs = some b ∧
      b.asUnorderedSlice.Perm (xs.drop (xs.length - min xs.length c)) ∧
      b.asUnorderedSlice.length ≤ c := by
  have hinit : (CircularBuffer.withCapacity α c) =
      (⟨c, ringList c ([] : List α), ([] : List α).length % c⟩ :
        CircularBuffer α) := by
    unfold CircularBuffer.withCapacity ringList
    simp
  refine ⟨⟨c, ringList c xs, (([] : List α).length + xs.length) % c⟩, ?_, ?_, ?_⟩
  · rw [hinit, pushAll_ring c hc xs []]
    simp
  · exact ringList_perm c hc xs
  · rw [CircularBuffer.asUnorderedSlice, ringList_length c hc xs]
    omega

/-- **C5, counterexample to the unamended claim.** With capacity `0` the
first push panics (out-of-bounds write into an empty vector), so no state
exposing "the last `min (n, 0)` pushes" ever exists. -/
theorem C5_ring_buffer_capacity_zero_panics :
    CircularBuffer.pushAll (CircularBuffer.withCapacity Nat 0) [1] = none := by
  rfl

/-- Witness for C5 at a concrete capacity and push sequence. -/
theorem C5_ring_buffer_contents_witness :
    1 ≤ 2 ∧
    ∃ b, CircularBuffer.pushAll (CircularBuffer.withCapacity Nat 2)
        [1, 2, 3] = some b ∧
      b.asUnorderedSlice.Perm ([1, 2, 3].drop (3 - min 3 2)) ∧
      b.asUnorderedSlice.length ≤ 2 :=
  ⟨by decide, C5_ring_buffer_contents 2 (by decide) [1, 2, 3]⟩

/-! ## C2: hash-pipeline deduplication -/

/-- The inductive invariant of the pipeline: no boss name has two fetches
in flight, the outstanding set is a set, and every in-flight fetch is
recorded as outstanding. -/
def PipeInv (s : HashPipeline) : Prop :=
  s.inFlight.Nodup ∧ s.outstanding.Nodup ∧ ∀ x ∈ s.inFlight, x ∈ s.outstanding

theorem dropWhile_head_false {α : Type} (p : α → Bool) (l : List α) (x : α)
    (xs : List α) (h : l.dropWhile p = x :: xs) : p x = false := by
  induction l with
  | nil => cases h
  | cons a rest ih =>
    cases hpa : p a
    · rw [List.dropWhile_cons, hpa] at h
      simp only [Bool.false_eq_true, if_false] at h
      cases h
      simpa using hpa
    · rw [List.dropWhile_cons, hpa] at h
      simp only [if_true] at h
      exact ih h

theorem pipeStep_inv (K : Nat) (s : HashPipeline) (e : HashPipeline.PipeEvent)
    (hInv : PipeInv s) : PipeInv (HashPipeline.step K s e) := by
  obtain ⟨hIn, hOut, hSub⟩ := hInv
  cases e with
  | request n u => exact ⟨hIn, hOut, hSub⟩
  | start =>
    rw [HashPipeline.step, HashPipeline.startStep]
    by_cases hK : s.inFlight.length < K
    · rw [if_pos hK]
      cases hq : s.queue.dropWhile (fun p => p.1 ∈ s.outstanding) with
      | nil => exact ⟨hIn, hOut, hSub⟩
      | cons q rest =>
        have hfresh : q.1 ∉ s.outstanding := by
          have := dropWhile_head_false _ _ _ _ hq
          simpa using this
        refine ⟨?_, ?_, ?_⟩
        · rw [List.nodup_append]
          refine ⟨hIn, List.nodup_singleton _, ?_⟩
          intro x hx hx2
          rw [List.mem_singleton] at hx2
          subst hx2
          exact hfresh (hSub _ hx)
        · exact List.nodup_cons.mpr ⟨hfresh, hOut⟩
        · intro x hx
          rcases List.mem_append.mp hx with h | h
          · exact List.mem_cons_of_mem _ (hSub x h)
          · rw [List.mem_singleton] at h
            subst h
            exact List.mem_cons_self ..
    · rw [if_neg hK]
      exact ⟨hIn, hOut, hSub⟩
  | complete n =>
    rw [HashPipeline.step, HashPipeline.completeStep]
    by_cases hmem : n ∈ s.inFlight
    · rw [if_pos hmem]
      refine ⟨hIn.erase n, hOut.erase n, ?_⟩
      intro x hx
      have hx1 := List.mem_of_mem_erase hx
      have hxne : x ≠ n := (hIn.mem_erase_iff.mp hx).1
      exact hOut.mem_erase_iff.mpr ⟨hxne, hSub x hx1⟩
    · rw [if_neg hmem]
      exact ⟨hIn, hOut, hSub⟩
  | fail n =>
    rw [HashPipeline.step, HashPipeline.failStep]
    by_cases hmem : n ∈ s.inFlight
    · rw [if_pos hmem]
      refine ⟨hIn.erase n, hOut, ?_⟩
      intro x hx
      exact hSub x (List.mem_of_mem_erase hx)
    · rw [if_neg hmem]
      exact ⟨hIn, hOut, hSub⟩

theorem pipeRun_inv (K : Nat) (events : List HashPipeline.PipeEvent) :
    PipeInv (HashPipeline.run K events) := by
  have hgen : ∀ s, PipeInv s →
      PipeInv (events.foldl (HashPipeline.step K) s) := by
    induction events with
    | nil => intro s h; exact h
    | cons e rest ih =>
      intro s h
      exact ih _ (pipeStep_inv K s e h)
  exact hgen HashPipeline.init ⟨List.nodup_nil, List.nodup_nil, by intro x hx; cases hx⟩

/-- **C2.** Hash-pipeline deduplication, over every interleaving of
requests, `Inner::poll` invocations, fetch completions and fetch failures:
(a) at most one fetch per boss name is ever in flight (and the outstanding
set holds no duplicates, every in-flight fetch being outstanding);
(b) a request for a name already outstanding is silently dropped: polling
after such a request returns the pipeline to exactly its previous state;
(c) delivery of a result removes the name from the outstanding set and
hands the result downstream, while request, poll and failure steps never
shrink the outstanding set — the name is removed exactly when its result is
delivered by the receiver's poll;
(d) after the name has left the outstanding set, a new request for it
starts a new fetch. -/
theorem C2_hash_pipeline_dedup (K : Nat)
    (events : List HashPipeline.PipeEvent) :
    ((HashPipeline.run K events).inFlight.Nodup ∧
      (HashPipeline.run K events).outstanding.Nodup ∧
      ∀ x ∈ (HashPipeline.run K events).inFlight,
        x ∈ (HashPipeline.run K events).outstanding) ∧
    (∀ (s : HashPipeline) (n : BossName) (u : String), n ∈ s.outstanding →
      s.queue = [] → s.inFlight.length < K →
      HashPipeline.startStep K (s.requestStep n u) = s) ∧
    (∀ (s : HashPipeline) (n : BossName), s.outstanding.Nodup →
      n ∈ s.inFlight →
      (s.completeStep n).delivered = s.delivered ++ [n] ∧
        n ∉ (s.completeStep n).outstanding) ∧
    (∀ (s : HashPipeline) (n : BossName) (u : String),
      s.outstanding ⊆ (s.requestStep n u).outstanding ∧
      s.outstanding ⊆ (HashPipeline.startStep K s).outstanding ∧
      s.outstanding ⊆ (s.failStep n).outstanding) ∧
    (∀ (s : HashPipeline) (n : BossName) (u : String), n ∉ s.outstanding →
      s.queue = [] → s.inFlight.length < K →
      (HashPipeline.startStep K (s.requestStep n u)).inFlight =
        s.inFlight ++ [n]) := by
  refine ⟨pipeRun_inv K events, ?_, ?_, ?_, ?_⟩
  · intro s n u hmem hq hK
    obtain ⟨queue, outstanding, inFlight, delivered⟩ := s
    simp only at hq hK hmem
    subst hq
    rw [HashPipeline.requestStep, HashPipeline.startStep]
    simp only [List.nil_append]
    rw [if_pos hK]
    rw [List.dropWhile_cons]
    simp [hmem]
  · intro s n hOut hmem
    rw [HashPipeline.completeStep, if_pos hmem]
    exact ⟨rfl, fun hbad => ((hOut.mem_erase_iff.mp hbad).1 rfl)⟩
  · intro s n u
    refine ⟨fun x hx => hx, ?_, ?_⟩
    · rw [HashPipeline.startStep]
      by_cases hK : s.inFlight.length < K
      · rw [if_pos hK]
        cases hq : s.queue.dropWhile (fun p => p.1 ∈ s.outstanding) with
        | nil => exact fun x hx => hx
        | cons q rest => exact fun x hx => List.mem_cons_of_mem _ hx
      · rw [if_neg hK]
        exact fun x hx => hx
    · rw [HashPipeline.failStep]
      by_cases hmem : n ∈ s.inFlight
      · rw [if_pos hmem]; exact fun x hx => hx
      · rw [if_neg hmem]; exact fun x hx => hx
  · intro s n u hmem hq hK
    obtain ⟨queue, outstanding, inFlight, delivered⟩ := s
    simp only at hq hK hmem ⊢
    subst hq
    rw [HashPipeline.requestStep, HashPipeline.startStep]
    simp only [List.nil_append]
    rw [if_pos hK]
    rw [List.dropWhile_cons]
    simp [hmem]

/-- Witness for C2: a concrete interleaving in which a duplicate request is
dropped while a fetch for the same name is outstanding. -/
theorem C2_hash_pipeline_dedup_witness :
    ("A" ∈ (HashPipeline.run 5
      [HashPipeline.PipeEvent.request "A" "u", HashPipeline.PipeEvent.start]).outstanding) ∧
    ((HashPipeline.run 5
      [HashPipeline.PipeEvent.request "A" "u", HashPipeline.PipeEvent.start]).queue = []) ∧
    ((HashPipeline.run 5
      [HashPipeline.PipeEvent.request "A" "u", HashPipeline.PipeEvent.start]).inFlight.length < 5) ∧
    (HashPipeline.startStep 5
      ((HashPipeline.run 5
        [HashPipeline.PipeEvent.request "A" "u", HashPipeline.PipeEvent.start]).requestStep "A" "u2") =
      HashPipeline.run 5
        [HashPipeline.PipeEvent.request "A" "u", HashPipeline.PipeEvent.start]) := by
  refine ⟨by decide, by decide, by decide, ?_⟩
  exact (C2_hash_pipeline_dedup 5
    [HashPipeline.PipeEvent.request "A" "u", HashPipeline.PipeEvent.start]).2.1
    _ "A" "u2" (by decide) (by decide) (by decide)

/-! ## C6: which media item ends up on the parsed `RaidInfo` -/

/-- The url of the last item of a media array, written as the spec phrase
"the media URL of the (first/last) item" reads: by structural cases on the
array. -/
def lastMediaUrl : List MediaEntity → Option BossImageUrl
  | [] => none
  | [m] => some m.mediaUrlHttps
  | _ :: m :: rest => lastMediaUrl (m :: rest)

/-- `lastMediaUrl` lifted to the `media` field of a post. -/
def tweetLastMediaUrl (t : Tweet) : Option BossImageUrl :=
  match t.entities.media with
  | none => none
  | some l => lastMediaUrl l

theorem lastMediaUrl_eq_getLast (l : List MediaEntity) :
    lastMediaUrl l = l.getLast?.map MediaEntity.mediaUrlHttps := by
  induction l with
  | nil => rfl
  | cons m rest ih =>
    cases rest with
    | nil => rfl
    | cons m2 rest2 =>
      rw [lastMediaUrl, ih, List.getLast?_cons_cons]

/-- **C6 (amended).** For every raw post the parser accepts, the `image`
field of the produced `RaidInfo` is the media URL of the LAST item of the
post's `entities.media` array (the source takes it with `Vec::pop`, and its
own test `parse_tweet_with_multiple_media_items` asserts exactly this), and
it is absent when the media array is absent or empty. -/
theorem C6_parsed_media_image (t : Tweet) (r : RaidInfo)
    (h : RaidInfo.fromTweet t = some r) :
    r.image = tweetLastMediaUrl t ∧
    ((t.entities.media = none ∨ t.entities.media = some []) →
      r.image = none) := by
  have himg : r.image = t.entities.media.bind
      (fun media => media.getLast?.map MediaEntity.mediaUrlHttps) := by
    rw [RaidInfo.fromTweet] at h
    by_cases hsrc : t.source = granblueAppSource
    · rw [if_pos hsrc] at h
      cases hp : parseText t.text with
      | none => rw [hp] at h; cases h
      | some parsed =>
        rw [hp] at h
        injection h with h2
        rw [← h2]
    · rw [if_neg hsrc] at h
      cases h
  constructor
  · rw [himg, tweetLastMediaUrl]
    cases hm : t.entities.media with
    | none => rfl
    | some l =>
      show Option.map MediaEntity.mediaUrlHttps l.getLast? = lastMediaUrl l
      exact (lastMediaUrl_eq_getLast l).symm
  · intro hcase
    rcases hcase with hc | hc <;> rw [himg, hc] <;> rfl

/-- A concrete accepted post carrying two media items with different urls
(the shape of the source's `parse_tweet_with_multiple_media_items` test). -/
def mediaExampleTweet : Tweet :=
  { id := 1,
    text := "ABCD1234 :参戦ID\n参加者募集！\nLv60 オオゾラッコ",
    source := granblueAppSource,
    user := { screenName := "walfieee", defaultProfileImage := false,
              profileImageUrlHttps := "https://example.com/icon.png" },
    entities := { media := some [{ mediaUrlHttps := "https://example.com/media1.jpg" },
                                 { mediaUrlHttps := "https://example.com/media2.jpg" }] },
    createdAt := 0 }

/-- **C6, counterexample to the unamended claim.** On a post with two media
items the parser accepts, the produced image is the url of the LAST item,
which differs from the url of the first item — so "the image field is the
media URL of the first item" is false. -/
theorem C6_parsed_media_image_counterexample :
    ((RaidInfo.fromTweet mediaExampleTweet).bind RaidInfo.image =
      some "https://example.com/media2.jpg") ∧
    ((mediaExampleTweet.entities.media.bind List.head?).map
        MediaEntity.mediaUrlHttps = some "https://example.com/media1.jpg") ∧
    ("https://example.com/media2.jpg" : String) ≠
      "https://example.com/media1.jpg" := by
  refine ⟨by decide, by decide, by decide⟩

/-- Witness for C6 at the same concrete post. -/
theorem C6_parsed_media_image_witness :
    ∃ r, RaidInfo.fromTweet mediaExampleTweet = some r ∧
      r.image = tweetLastMediaUrl mediaExampleTweet := by
  cases hr : RaidInfo.fromTweet mediaExampleTweet with
  | none => exact absurd hr (by decide)
  | some r =>
    exact ⟨r, rfl, (C6_parsed_media_image mediaExampleTweet r hr).1⟩

/-! ## C3: `Worker::remove_bosses` -/

theorem alookup_ainsert {β : Type} (l : List (String × β)) (k k' : String)
    (v : β) :
    alookup (ainsert l k v) k' = if k = k' then some v else alookup l k' := by
  induction l with
  | nil =>
    by_cases h : k = k' <;> simp [ainsert, alookup, h]
  | cons p rest ih =>
    by_cases hp : p.1 = k
    · rw [ainsert, if_pos hp]
      by_cases h : k = k'
      · rw [alookup, if_pos h, if_pos h]
      · rw [alookup, if_neg h, if_neg h, alookup, if_neg (by rw [hp]; exact h)]
    · rw [ainsert, if_neg hp]
      by_cases h : p.1 = k'
      · have hkk : ¬ k = k' := fun heq => hp (heq ▸ h)
        rw [alookup, if_pos h, if_neg hkk, alookup, if_pos h]
      · rw [alookup, if_neg h, ih, alookup, if_neg h]

namespace Worker

theorem removeBossesFold_bosses {σ Item : Type} (f : Message → Option Item)
    (sendImpl : σ → Item → Option σ) (pred : RaidBossMetadata → Bool)
    (l : List (BossName × RaidBossEntry σ)) (subs : Broadcast σ)
    (req : List (BossName × Broadcast σ)) (log : List Message)
    (ml : List MetricsEvent) :
    (removeBossesFold f sendImpl pred l subs req log ml).bosses =
      l.filter (fun p => !pred p.2.bossData) := by
  induction l generalizing subs req log ml with
  | nil => rfl
  | cons p rest ih =>
    obtain ⟨n, e⟩ := p
    by_cases hp : pred e.bossData
    · rw [removeBossesFold, if_pos hp]
      rw [ih]
      simp [hp]
    · rw [removeBossesFold, if_neg hp]
      simp only
      rw [ih]
      simp [hp]

theorem removeBossesFold_log {σ Item : Type} (f : Message → Option Item)
    (sendImpl : σ → Item → Option σ) (pred : RaidBossMetadata → Bool)
    (l : List (BossName × RaidBossEntry σ)) (subs : Broadcast σ)
    (req : List (BossName × Broadcast σ)) (log : List Message)
    (ml : List MetricsEvent) :
    (removeBossesFold f sendImpl pred l subs req log ml).log =
      log ++ (l.filter (fun p => pred p.2.bossData)).map
        (fun p => Message.bossRemove p.2.bossData.boss.name) := by
  induction l generalizing subs req log ml with
  | nil => simp [removeBossesFold]
  | cons p rest ih =>
    obtain ⟨n, e⟩ := p
    by_cases hp : pred e.bossData
    · rw [removeBossesFold, if_pos hp]
      rw [ih]
      simp [hp]
    · rw [removeBossesFold, if_neg hp]
      simp only
      rw [ih]
      simp [hp]

theorem removeBossesFold_subscribers {σ Item : Type} (f : Message → Option Item)
    (sendImpl : σ → Item → Option σ) (pred : RaidBossMetadata → Bool)
    (l : List (BossName × RaidBossEntry σ)) (subs : Broadcast σ)
    (req : List (BossName × Broadcast σ)) (log : List Message)
    (ml : List MetricsEvent) :
    (removeBossesFold f sendImpl pred l subs req log ml).subscribers =
      ((l.filter (fun p => pred p.2.bossData)).map
        (fun p => Message.bossRemove p.2.bossData.boss.name)).foldl
        (fun s m => Broadcast.maybeSend sendImpl s (f m)) subs := by
  induction l generalizing subs req log ml with
  | nil => rfl
  | cons p rest ih =>
    obtain ⟨n, e⟩ := p
    by_cases hp : pred e.bossData
    · rw [removeBossesFold, if_pos hp]
      rw [ih]
      simp [hp]
    · rw [removeBossesFold, if_neg hp]
      simp only
      rw [ih]
      simp [hp]

theorem removeBossesFold_requested_preserved {σ Item : Type}
    (f : Message → Option Item) (sendImpl : σ → Item → Option σ)
    (pred : RaidBossMetadata → Bool)
    (l : List (BossName × RaidBossEntry σ)) (subs : Broadcast σ)
    (req : List (BossName × Broadcast σ)) (log : List Message)
    (ml : List MetricsEvent) (name : BossName) (v : Broadcast σ)
    (hv : alookup req name = some v)
    (hother : ∀ p ∈ l, pred p.2.bossData = true →
      p.2.bossData.boss.name ≠ name) :
    alookup (removeBossesFold f sendImpl pred l subs req log ml).requestedBosses
      name = some v := by
  induction l generalizing subs req log ml with
  | nil => exact hv
  | cons p rest ih
  =>
    obtain ⟨n, e⟩ := p
    by_cases hp : pred e.bossData
    · rw [removeBossesFold, if_pos hp]
      have hne : e.bossData.boss.name ≠ name :=
        hother (n, e) (List.mem_cons_self ..) hp
      by_cases hempty : e.broadcast.isEmpty
      · rw [if_pos hempty]
        exact ih _ _ _ _ hv
          (fun q hq hq2 => hother q (List.mem_cons_of_mem _ hq) hq2)
      · rw [if_neg hempty]
        refine ih _ _ _ _ ?_
          (fun q hq hq2 => hother q (List.mem_cons_of_mem _ hq) hq2)
        rw [alookup_ainsert, if_neg hne, hv]
    · rw [removeBossesFold, if_neg hp]
      simp only
      exact ih subs req log ml hv
        (fun q hq hq2 => hother q (List.mem_cons_of_mem _ hq) hq2)

theorem removeBossesFold_requested_moved {σ Item : Type}
    (f : Message → Option Item) (sendImpl : σ → Item → Option σ)
    (pred : RaidBossMetadata → Bool)
    (l : List (BossName × RaidBossEntry σ)) (subs : Broadcast σ)
    (req : List (BossName × Broadcast σ)) (log : List Message)
    (ml : List MetricsEvent) (k : BossName) (e : RaidBossEntry σ)
    (hmem : (k, e) ∈ l)
    (hNames : ∀ p ∈ l, p.2.bossData.boss.name = p.1)
    (hKeys : (l.map Prod.fst).Nodup)
    (hpred : pred e.bossData = true)
    (hne : e.broadcast.subscribers ≠ []) :
    alookup (removeBossesFold f sendImpl pred l subs req log ml).requestedBosses
      k = some e.broadcast := by
  induction l generalizing subs req log ml with
  | nil => cases hmem
  | cons p rest ih =>
    obtain ⟨n0, e0⟩ := p
    rcases List.mem_cons.mp hmem with hhead | htail
    · obtain ⟨hn, he⟩ := Prod.mk.injEq .. ▸ hhead
      subst hn; subst he
      rw [removeBossesFold, if_pos hpred]
      have hnotempty : ¬ e.broadcast.isEmpty := by
        rw [Broadcast.isEmpty]
        simpa [List.isEmpty_iff] using hne
      rw [if_neg hnotempty]
      have hname : e.bossData.boss.name = k :=
        hNames (k, e) (List.mem_cons_self ..)
      refine removeBossesFold_requested_preserved f sendImpl pred rest _ _ _ _
        k e.broadcast ?_ ?_
      · rw [hname, alookup_ainsert, if_pos rfl]
      · intro q hq hq2
        rw [hNames q (List.mem_cons_of_mem _ hq)]
        have hknotin : k ∉ rest.map Prod.fst := (List.nodup_cons.mp hKeys).1
        intro heq
        exact hknotin (heq ▸ List.mem_map_of_mem Prod.fst hq)
    · have hKeys' : (rest.map Prod.fst).Nodup := (List.nodup_cons.mp hKeys).2
      have hNames' : ∀ p ∈ rest, p.2.bossData.boss.name = p.1 :=
        fun q hq => hNames q (List.mem_cons_of_mem _ hq)
      by_cases hp : pred e0.bossData
      · rw [removeBossesFold, if_pos hp]
        by_cases hempty : e0.broadcast.isEmpty
        · rw [if_pos hempty]
          exact ih _ _ _ _ htail hNames' hKeys'
        · rw [if_neg hempty]
          exact ih _ _ _ _ htail hNames' hKeys'
      · rw [removeBossesFold, if_neg hp]
        simp only
        exact ih _ _ _ _ htail hNames' hKeys'

end Worker

/-- **C3.** `RemoveBosses(pred)` removes exactly the catalog entries whose
metadata satisfies the predicate (entries not matching are kept unchanged,
in place); one `BossRemove` message per removed entry is adapted and
offered to the global subscriber group, in catalog order; each removed
entry with a non-empty follower group has that very group moved into the
pending-followers table under the boss's name; and the global group ends
in the state produced by folding those adapted sends over it. -/
theorem C3_remove_bosses_postcondition {σ Item : Type} (w : Worker σ Item)
    (pred : RaidBossMetadata → Bool)
    (hNames : ∀ p ∈ w.bosses, p.2.bossData.boss.name = p.1)
    (hKeys : (w.bosses.map Prod.fst).Nodup) :
    ((w.removeBosses pred).1.bosses =
      w.bosses.filter (fun p => !pred p.2.bossData)) ∧
    ((w.removeBosses pred).2 =
      (w.bosses.filter (fun p => pred p.2.bossData)).map
        (fun p => Message.bossRemove p.2.bossData.boss.name)) ∧
    ((w.removeBosses pred).1.subscribers =
      ((w.bosses.filter (fun p => pred p.2.bossData)).map
        (fun p => Message.bossRemove p.2.bossData.boss.name)).foldl
        (fun s m => Broadcast.maybeSend w.sendImpl s (w.filterMapMessage m))
        w.subscribers) ∧
    (∀ p ∈ w.bosses, pred p.2.bossData = true →
      p.2.broadcast.subscribers ≠ [] →
      alookup (w.removeBosses pred).1.requestedBosses p.1 =
        some p.2.broadcast) ∧
    ((w.removeBosses pred).1.cachedBossList = w.cachedBossList) := by
  refine ⟨?_, ?_, ?_, ?_, rfl⟩
  · rw [Worker.removeBosses]
    exact Worker.removeBossesFold_bosses ..
  · rw [Worker.removeBosses]
    simpa using Worker.removeBossesFold_log w.filterMapMessage w.sendImpl pred
      w.bosses w.subscribers w.requestedBosses [] w.metricsLog
  · rw [Worker.removeBosses]
    exact Worker.removeBossesFold_subscribers ..
  · intro p hmem hpred hne
    rw [Worker.removeBosses]
    exact Worker.removeBossesFold_requested_moved w.filterMapMessage w.sendImpl
      pred w.bosses w.subscribers w.requestedBosses [] w.metricsLog p.1 p.2
      hmem hNames hKeys hpred hne

/-- A two-boss worker used by several witnesses: boss "A" has one follower,
boss "B" has none. -/
def bossAEntry : RaidBossEntry Unit :=
  { bossData :=
      { boss := { name := "A", level := 60, image := none,
                  language := Language.english, translations := [] },
        lastSeen := 0, imageHash := none },
    recentTweets := CircularBuffer.withCapacity RaidTweet 10,
    broadcast := ⟨[(0, ())]⟩ }

/-- The second catalog entry of the witness worker. -/
def bossBEntry : RaidBossEntry Unit :=
  { bossData :=
      { boss := { name := "B", level := 60, image := none,
                  language := Language.japanese, translations := [] },
        lastSeen := 0, imageHash := none },
    recentTweets := CircularBuffer.withCapacity RaidTweet 10,
    broadcast := ⟨[]⟩ }

/-- The witness worker itself. -/
def workerAB : Worker Unit Message :=
  { sendImpl := fun s _ => some s,
    filterMapMessage := some,
    bosses := [("A", bossAEntry), ("B", bossBEntry)],
    tweetHistorySize := 10,
    requestedBosses := [],
    subscribers := ⟨[]⟩,
    cachedBossList := some (Message.bossList
      [bossAEntry.bossData.boss, bossBEntry.bossData.boss]),
    heartbeat := none,
    idPool := IdPool.new,
    hashRequests := [],
    metricsLog := [] }

/-- Witness for C3: removing boss "A" from the two-boss worker. -/
theorem C3_remove_bosses_postcondition_witness :
    (∀ p ∈ workerAB.bosses, p.2.bossData.boss.name = p.1) ∧
    ((workerAB.bosses.map Prod.fst).Nodup) ∧
    ((workerAB.removeBosses (fun m => m.boss.name == "A")).1.bosses =
      workerAB.bosses.filter (fun p => !(p.2.bossData.boss.name == "A"))) := by
  refine ⟨by decide, by decide, ?_⟩
  exact (C3_remove_bosses_postcondition workerAB
    (fun m => m.boss.name == "A") (by decide) (by decide)).1

/-! ## C10: the pending-followers table never stores an empty group -/

theorem alookup_eq_none_iff {β : Type} (l : List (String × β)) (k : String) :
    alookup l k = none ↔ k ∉ l.map Prod.fst := by
  induction l with
  | nil => simp [alookup]
  | cons p rest ih =>
    by_cases h : p.1 = k
    · simp [alookup, h]
    · simp only [alookup, if_neg h, List.map_cons, List.mem_cons, ih]
      constructor
      · intro h2
        intro hbad
        rcases hbad with hh | hh
        · exact h hh.symm
        · exact h2 hh
      · intro h2 h3
        exact h2 (Or.inr h3)

theorem aupdate_keys {β : Type} (l : List (String × β)) (k : String)
    (f : β → β) : (aupdate l k f).map Prod.fst = l.map Prod.fst := by
  rw [aupdate, List.map_map]
  congr 1
  funext p
  by_cases h : p.1 = k <;> simp [h]

theorem mem_aupdate {β : Type} (l : List (String × β)) (k : String)
    (f : β → β) (p : String × β) (hmem : p ∈ aupdate l k f) :
    p ∈ l ∨ ∃ q ∈ l, q.1 = k ∧ p = (q.1, f q.2) := by
  obtain ⟨q, hq, hpq⟩ := List.mem_map.mp hmem
  by_cases h : q.1 = k
  · rw [if_pos h] at hpq
    exact Or.inr ⟨q, hq, h, hpq.symm⟩
  · rw [if_neg h] at hpq
    exact Or.inl (hpq ▸ hq)

theorem mem_ainsert {β : Type} (l : List (String × β)) (k : String) (v : β)
    (p : String × β) (hmem : p ∈ ainsert l k v) : p = (k, v) ∨ p ∈ l := by
  induction l with
  | nil => simpa [ainsert] using hmem
  | cons q rest ih =>
    by_cases h : q.1 = k
    · rw [ainsert, if_pos h] at hmem
      rcases List.mem_cons.mp hmem with h1 | h1
      · exact Or.inl h1
      · exact Or.inr (List.mem_cons_of_mem _ h1)
    · rw [ainsert, if_neg h] at hmem
      rcases List.mem_cons.mp hmem with h1 | h1
      · exact Or.inr (h1 ▸ List.mem_cons_self ..)
      · rcases ih h1 with h2 | h2
        · exact Or.inl h2
        · exact Or.inr (List.mem_cons_of_mem _ h2)

theorem ainsert_keys_subset {β : Type} (l : List (String × β)) (k : String)
    (v : β) (x : String) (hx : x ∈ (ainsert l k v).map Prod.fst) :
    x = k ∨ x ∈ l.map Prod.fst := by
  obtain ⟨p, hp, hpx⟩ := List.mem_map.mp hx
  rcases mem_ainsert l k v p hp with h | h
  · subst h
    exact Or.inl hpx.symm
  · exact Or.inr (hpx ▸ List.mem_map_of_mem Prod.fst h)

theorem ainsert_keys_nodup {β : Type} (l : List (String × β)) (k : String)
    (v : β) (hl : (l.map Prod.fst).Nodup) :
    ((ainsert l k v).map Prod.fst).Nodup := by
  induction l with
  | nil => simp [ainsert]
  | cons q rest ih =>
    rw [List.map_cons] at hl
    obtain ⟨hq, hrest⟩ := List.nodup_cons.mp hl
    by_cases h : q.1 = k
    · rw [ainsert, if_pos h]
      simp only [List.map_cons, List.nodup_cons]
      exact ⟨h ▸ hq, hrest⟩
    · rw [ainsert, if_neg h]
      simp only [List.map_cons, List.nodup_cons]
      refine ⟨?_, ih hrest⟩
      intro hbad
      rcases ainsert_keys_subset rest k v q.1 hbad with h1 | h1
      · exact h h1
      · exact hq h1

theorem alookup_of_mem_nodup {β : Type} (l : List (String × β))
    (p : String × β) (hKeys : (l.map Prod.fst).Nodup) (hmem : p ∈ l) :
    alookup l p.1 = some p.2 := by
  induction l with
  | nil => cases hmem
  | cons q rest ih =>
    rw [List.map_cons] at hKeys
    obtain ⟨hq, hrest⟩ := List.nodup_cons.mp hKeys
    rcases List.mem_cons.mp hmem with h | h
    · subst h
      rw [alookup, if_pos rfl]
    · rw [alookup]
      by_cases hqp : q.1 = p.1
      · exact absurd (hqp ▸ List.mem_map_of_mem Prod.fst h) hq
      · rw [if_neg hqp]
        exact ih hrest h

namespace Broadcast

theorem subscribe_ne_nil {σ : Type} (b : Broadcast σ) (id : SubId) (s : σ) :
    (b.subscribe id s).subscribers ≠ [] := by
  rw [Broadcast.subscribe]
  by_cases h : (b.get id).isSome
  · rw [if_pos h]
    intro hbad
    simp only [List.map_eq_nil_iff] at hbad
    rw [Broadcast.get, hbad] at h
    simp [Broadcast.findSub] at h
  · rw [if_neg h]
    simp

end Broadcast

/-- The C10 invariant: pending-follower keys are distinct (they come from a
`HashMap`) and every stored group is non-empty. -/
def PendingWF {σ Item : Type} (w : Worker σ Item) : Prop :=
  ((w.requestedBosses.map Prod.fst).Nodup) ∧
  (∀ p ∈ w.requestedBosses, p.2.subscribers ≠ [])

namespace Worker

theorem removeBossesFold_requested_wf {σ Item : Type}
    (f : Message → Option Item) (sendImpl : σ → Item → Option σ)
    (pred : RaidBossMetadata → Bool)
    (l : List (BossName × RaidBossEntry σ)) (subs : Broadcast σ)
    (req : List (BossName × Broadcast σ)) (log : List Message)
    (ml : List MetricsEvent)
    (hkeys : (req.map Prod.fst).Nodup)
    (hne : ∀ p ∈ req, p.2.subscribers ≠ []) :
    (((removeBossesFold f sendImpl pred l subs req log ml).requestedBosses.map
        Prod.fst).Nodup) ∧
    (∀ p ∈ (removeBossesFold f sendImpl pred l subs req log ml).requestedBosses,
      p.2.subscribers ≠ []) := by
  induction l generalizing subs req log ml with
  | nil => exact ⟨hkeys, hne⟩
  | cons p rest ih =>
    obtain ⟨n, e⟩ := p
    by_cases hp : pred e.bossData
    · rw [removeBossesFold, if_pos hp]
      by_cases hempty : e.broadcast.isEmpty
      · rw [if_pos hempty]
        exact ih _ _ _ _ hkeys hne
      · rw [if_neg hempty]
        refine ih _ _ _ _ (ainsert_keys_nodup _ _ _ hkeys) ?_
        intro q hq
        rcases mem_ainsert _ _ _ q hq with h1 | h1
        · subst h1
          rw [Broadcast.isEmpty, List.isEmpty_iff] at hempty
          exact hempty
        · exact hne q h1
    · rw [removeBossesFold, if_neg hp]
      simp only
      exact ih _ _ _ _ hkeys hne

theorem handleImageHash_requested {σ Item : Type} (w : Worker σ Item)
    (bossName : BossName) (imageHash : ImageHash) :
    (w.handleImageHash bossName imageHash).1.requestedBosses =
      w.requestedBosses := by
  rw [Worker.handleImageHash]
  split
  · rfl
  · dsimp only
    split
    · rfl
    · split <;> rfl

theorem follow_pending_wf {σ Item : Type} (w : Worker σ Item) (id : SubId)
    (bossName : BossName) (hWF : PendingWF w) :
    PendingWF (w.follow id bossName) := by
  obtain ⟨hkeys, hne⟩ := hWF
  rw [Worker.follow]
  cases hget : w.subscribers.get id with
  | none => exact ⟨hkeys, hne⟩
  | some subscriber =>
    cases hboss : alookup w.bosses bossName with
    | some e => exact ⟨hkeys, hne⟩
    | none =>
      cases hreq : alookup w.requestedBosses bossName with
      | some g =>
        -- occupied pending entry: subscribe in place
        refine ⟨?_, ?_⟩
        · show ((aupdate w.requestedBosses bossName
            (fun b => b.subscribe id subscriber)).map Prod.fst).Nodup
          rw [aupdate_keys]
          exact hkeys
        · intro q hq
          rcases mem_aupdate w.requestedBosses bossName
              (fun b => b.subscribe id subscriber) q hq with h1 | ⟨q0, hq0, _, hq2⟩
          · exact hne q h1
          · rw [hq2]
            exact Broadcast.subscribe_ne_nil q0.2 id _
      | none =>
        -- vacant: a fresh singleton group is appended
        refine ⟨?_, ?_⟩
        · show ((w.requestedBosses ++
            [(bossName, (Broadcast.new σ).subscribe id subscriber)]).map
              Prod.fst).Nodup
          rw [List.map_append]
          simp only [List.map_cons, List.map_nil]
          rw [List.nodup_append]
          refine ⟨hkeys, List.nodup_singleton _, ?_⟩
          intro x hx hx2
          rw [List.mem_singleton] at hx2
          subst hx2
          exact (alookup_eq_none_iff _ _).mp hreq hx
        · intro q hq
          have hq2 : q ∈ w.requestedBosses ++
              [(bossName, (Broadcast.new σ).subscribe id subscriber)] := hq
          rcases List.mem_append.mp hq2 with h1 | h1
          · exact hne q h1
          · rw [List.mem_singleton] at h1
            subst h1
            exact Broadcast.subscribe_ne_nil _ id _

theorem unfollow_pending_wf {σ Item : Type} (w : Worker σ Item) (id : SubId)
    (bossName : BossName) (hWF : PendingWF w) :
    PendingWF (w.unfollow id bossName) := by
  obtain ⟨hkeys, hne⟩ := hWF
  rw [Worker.unfollow]
  cases hboss : alookup w.bosses bossName with
  | some e => exact ⟨hkeys, hne⟩
  | none =>
    cases hreq : alookup w.requestedBosses bossName with
    | none => exact ⟨hkeys, hne⟩
    | some g =>
      dsimp only
      by_cases hstill : (g.unsubscribe id).isEmpty
      · rw [if_pos hstill]
        -- the group became empty: its entry is deleted
        refine ⟨?_, ?_⟩
        · show (((aremove w.requestedBosses bossName).map Prod.fst)).Nodup
          exact List.Nodup.sublist
            ((List.filter_sublist _).map Prod.fst) hkeys
        · intro q hq
          have hq2 : q ∈ aremove w.requestedBosses bossName := hq
          rw [aremove] at hq2
          exact hne q (List.mem_of_mem_filter hq2)
      · rw [if_neg hstill]
        -- the group stays: unsubscribe in place
        refine ⟨?_, ?_⟩
        · show ((aupdate w.requestedBosses bossName
            (fun b => b.unsubscribe id)).map Prod.fst).Nodup
          rw [aupdate_keys]
          exact hkeys
        · intro q hq
          rcases mem_aupdate w.requestedBosses bossName
              (fun b => b.unsubscribe id) q hq with h1 | ⟨q0, hq0, hq1, hq2⟩
          · exact hne q h1
          · have hq0v : q0.2 = g := by
              have h3 := alookup_of_mem_nodup _ q0 hkeys hq0
              rw [hq1, hreq] at h3
              exact (Option.some.inj h3).symm
            rw [hq2]
            show (q0.2.unsubscribe id).subscribers ≠ []
            rw [hq0v]
            intro hbad
            rw [Broadcast.isEmpty, hbad] at hstill
            simp at hstill

end Worker

theorem some_pair_eq {α β : Type} {a c : α} {b d : β}
    (h : some (a, b) = some (c, d)) : c = a ∧ d = b := by
  injection h with h2
  exact ⟨(congrArg Prod.fst h2).symm, (congrArg Prod.snd h2).symm⟩

namespace Worker

theorem handleRaidInfo_requested {σ Item : Type} (w : Worker σ Item)
    (info : RaidInfo) (w' : Worker σ Item) (log : List Message)
    (h : w.handleRaidInfo info = some (w', log)) :
    w'.requestedBosses = w.requestedBosses ∨
      w'.requestedBosses = aremove w.requestedBosses info.tweet.bossName := by
  simp only [Worker.handleRaidInfo, Worker.handleRaidInfoOccupied] at h
  cases hboss : alookup w.bosses info.tweet.bossName with
  | some value =>
    rw [hboss] at h
    dsimp only at h
    split at h
    · cases h
    · split at h
      · cases h
      · obtain ⟨hw, -⟩ := some_pair_eq h
        subst hw
        exact Or.inl rfl
  | none =>
    rw [hboss] at h
    dsimp only at h
    split at h
    · cases h
    · obtain ⟨hw, -⟩ := some_pair_eq h
      subst hw
      exact Or.inr rfl

theorem handleEvent_pending_wf {σ Item : Type} (w : Worker σ Item)
    (e : Event σ) (w' : Worker σ Item) (log : List Message)
    (h : w.handleEvent e = some (w', log)) (hWF : PendingWF w) :
    PendingWF w' := by
  obtain ⟨hkeys, hne⟩ := hWF
  cases e with
  | newRaidInfo info =>
    rcases handleRaidInfo_requested w info w' log h with hr | hr
    · exact ⟨hr ▸ hkeys, hr ▸ hne⟩
    · refine ⟨?_, ?_⟩
      · rw [hr]
        exact List.Nodup.sublist ((List.filter_sublist _).map Prod.fst) hkeys
      · intro q hq
        rw [hr, aremove] at hq
        exact hne q (List.mem_of_mem_filter hq)
  | newImageHash bossName imageHash =>
    rw [Worker.handleEvent] at h
    injection h with h2
    have hw : (w.handleImageHash bossName imageHash).1 = w' := congrArg Prod.fst h2
    subst hw
    refine ⟨?_, ?_⟩
    · rw [Worker.handleImageHash_requested]
      exact hkeys
    · intro q hq
      rw [Worker.handleImageHash_requested] at hq
      exact hne q hq
  | subscriberFollow id bossName =>
    rw [Worker.handleEvent] at h
    obtain ⟨hw, -⟩ := some_pair_eq h
    subst hw
    exact Worker.follow_pending_wf w id bossName ⟨hkeys, hne⟩
  | subscriberUnfollow id bossName =>
    rw [Worker.handleEvent] at h
    obtain ⟨hw, -⟩ := some_pair_eq h
    subst hw
    exact Worker.unfollow_pending_wf w id bossName ⟨hkeys, hne⟩
  | subscriberGetBosses id =>
    rw [Worker.handleEvent] at h
    obtain ⟨hw, -⟩ := some_pair_eq h
    subst hw
    exact ⟨hkeys, hne⟩
  | subscriberGetTweets id bossName =>
    rw [Worker.handleEvent] at h
    cases hget : w.subscribers.get id with
    | none =>
      rw [hget] at h
      dsimp only at h
      obtain ⟨hw, -⟩ := some_pair_eq h
      subst hw
      exact ⟨hkeys, hne⟩
    | some s =>
      rw [hget] at h
      dsimp only at h
      obtain ⟨hw, -⟩ := some_pair_eq h
      subst hw
      exact ⟨hkeys, hne⟩
  | subscriberHeartbeat =>
    rw [Worker.handleEvent] at h
    obtain ⟨hw, -⟩ := some_pair_eq h
    subst hw
    exact ⟨hkeys, hne⟩
  | subscriberSubscribe sub =>
    rw [Worker.handleEvent] at h
    obtain ⟨hw, -⟩ := some_pair_eq h
    subst hw
    exact ⟨hkeys, hne⟩
  | subscriberUnsubscribe id =>
    rw [Worker.handleEvent] at h
    obtain ⟨hw, -⟩ := some_pair_eq h
    subst hw
    exact ⟨hkeys, hne⟩
  | clientGetBosses =>
    rw [Worker.handleEvent] at h
    obtain ⟨hw, -⟩ := some_pair_eq h
    subst hw
    exact ⟨hkeys, hne⟩
  | clientGetTweets bossName =>
    rw [Worker.handleEvent] at h
    obtain ⟨hw, -⟩ := some_pair_eq h
    subst hw
    exact ⟨hkeys, hne⟩
  | clientExportMetadata =>
    rw [Worker.handleEvent] at h
    obtain ⟨hw, -⟩ := some_pair_eq h
    subst hw
    exact ⟨hkeys, hne⟩
  | clientExportMetrics =>
    rw [Worker.handleEvent] at h
    obtain ⟨hw, -⟩ := some_pair_eq h
    subst hw
    exact ⟨hkeys, hne⟩
  | clientRemoveBosses pred =>
    rw [Worker.handleEvent] at h
    injection h with h2
    have hw : (w.removeBosses pred).1 = w' := congrArg Prod.fst h2
    subst hw
    exact Worker.removeBossesFold_requested_wf w.filterMapMessage w.sendImpl
      pred w.bosses w.subscribers w.requestedBosses [] w.metricsLog hkeys hne
  | clientReadError =>
    rw [Worker.handleEvent] at h
    obtain ⟨hw, -⟩ := some_pair_eq h
    subst hw
    exact ⟨hkeys, hne⟩

theorem processEvents_pending_wf {σ Item : Type} (events : List (Event σ))
    (w w' : Worker σ Item) (h : w.processEvents events = some w')
    (hWF : PendingWF w) : PendingWF w' := by
  induction events generalizing w with
  | nil =>
    rw [Worker.processEvents, List.foldlM_nil] at h
    injection h with h2
    exact h2 ▸ hWF
  | cons e rest ih =>
    rw [Worker.processEvents, List.foldlM_cons] at h
    cases he : w.handleEvent e with
    | none => rw [he] at h; cases h
    | some pr =>
      rw [he] at h
      dsimp only [Option.map, Option.bind] at h
      exact ih pr.1 h (handleEvent_pending_wf w e pr.1 pr.2 (by rw [he]) ⟨hWF.1, hWF.2⟩)

end Worker

/-- **C10.** Starting from a built worker (whose pending table is empty),
after every handled event sequence every broadcast group stored in the
pending-followers table (`requested_bosses`) is non-empty, and its keys are
distinct: `Follow` only creates or extends pending groups with at least one
subscriber, `Unfollow` deletes a pending entry that becomes empty,
`RemoveBosses` migrates only non-empty follower groups, and a `NewRaid` for
a pending boss removes its entry wholesale.  No handler leaves an empty
group in the table. -/
theorem C10_pending_groups_nonempty {σ Item : Type} (b : ClientBuilder σ Item)
    (events : List (Event σ)) (w' : Worker σ Item)
    (h : (b.build).processEvents events = some w') :
    ((w'.requestedBosses.map Prod.fst).Nodup) ∧
    (∀ p ∈ w'.requestedBosses, p.2.subscribers ≠ []) := by
  have hWF : PendingWF b.build := by
    constructor
    · show ((([] : List (BossName × Broadcast σ)).map Prod.fst)).Nodup
      exact List.nodup_nil
    · intro p hp
      cases hp
  exact Worker.processEvents_pending_wf events b.build w' h hWF

/-- The builder used in concrete worker-level witnesses. -/
def builderU : ClientBuilder Unit Message :=
  { sendImpl := fun s _ => some s,
    filterMapMessage := some,
    historySize := 10,
    bosses := [] }

/-- Witness for C10: subscribe one subscriber and let it follow a boss that
is not in the catalog; the resulting pending entry is non-empty. -/
theorem C10_pending_groups_nonempty_witness :
    ∃ w', (builderU.build).processEvents
        [Event.subscriberSubscribe (), Event.subscriberFollow 0 "X"] =
          some w' ∧
      (((w'.requestedBosses.map Prod.fst).Nodup) ∧
        (∀ p ∈ w'.requestedBosses, p.2.subscribers ≠ [])) := by
  have hs : ((builderU.build).processEvents
      [Event.subscriberSubscribe (), Event.subscriberFollow 0 "X"]).isSome =
        true := rfl
  cases h : (builderU.build).processEvents
      [Event.subscriberSubscribe (), Event.subscriberFollow 0 "X"] with
  | none => rw [h] at hs; cases hs
  | some w' =>
    exact ⟨w', rfl, C10_pending_groups_nonempty builderU _ w' h⟩

/-! ## C9: configuration and panics -/

theorem alookup_mem {β : Type} (l : List (String × β)) (k : String) (v : β)
    (h : alookup l k = some v) : (k, v) ∈ l := by
  induction l with
  | nil => cases h
  | cons p rest ih =>
    by_cases hp : p.1 = k
    · rw [alookup, if_pos hp] at h
      injection h with h2
      subst h2
      exact List.mem_cons.mpr (Or.inl (Prod.ext hp.symm rfl))
    · rw [alookup, if_neg hp] at h
      exact List.mem_cons_of_mem _ (ih h)

/-- The invariant of one ring buffer as guaranteed by construction with a
positive capacity. -/
def BufWF (cap : Nat) (b : CircularBuffer RaidTweet) : Prop :=
  b.capacity = cap ∧ b.nextIndex < cap ∧ b.buffer.length ≤ cap

/-- All recent-tweet buffers of the worker are well-formed for a positive
configured history size. -/
def BuffersWF {σ Item : Type} (w : Worker σ Item) : Prop :=
  1 ≤ w.tweetHistorySize ∧
  ∀ p ∈ w.bosses, BufWF w.tweetHistorySize p.2.recentTweets

theorem push_wf (cap : Nat) (hcap : 1 ≤ cap) (b : CircularBuffer RaidTweet)
    (hb : BufWF cap b) (x : RaidTweet) :
    ∃ b', b.push x = some b' ∧ BufWF cap b' := by
  obtain ⟨hc, hn, hl⟩ := hb
  rw [CircularBuffer.push]
  by_cases h1 : b.buffer.length < b.capacity
  · rw [if_pos h1]
    refine ⟨_, rfl, hc, ?_, ?_⟩
    · show (b.nextIndex + 1) % b.capacity < cap
      rw [hc]
      exact Nat.mod_lt _ hcap
    · show (b.buffer ++ [x]).length ≤ cap
      rw [List.length_append, List.length_singleton]
      omega
  · rw [if_neg h1, if_pos (by omega : b.nextIndex < b.buffer.length),
      if_neg (by omega : ¬ b.capacity = 0)]
    refine ⟨_, rfl, hc, ?_, ?_⟩
    · show (b.nextIndex + 1) % b.capacity < cap
      rw [hc]
      exact Nat.mod_lt _ hcap
    · show (b.buffer.set b.nextIndex x).length ≤ cap
      rw [List.length_set]
      exact hl

namespace Worker

theorem sendToTranslations_wf {σ Item : Type} (cap : Nat) (hcap : 1 ≤ cap)
    (sendImpl : σ → Item → Option σ) (mapped : Option Item)
    (tweet : RaidTweet) (names : List BossName)
    (bosses : List (BossName × RaidBossEntry σ))
    (hb : ∀ p ∈ bosses, BufWF cap p.2.recentTweets) :
    ∃ bosses', sendToTranslations sendImpl mapped tweet names bosses =
        some bosses' ∧
      ∀ p ∈ bosses', BufWF cap p.2.recentTweets := by
  induction names generalizing bosses with
  | nil => exact ⟨bosses, rfl, hb⟩
  | cons name rest ih =>
    rw [sendToTranslations]
    cases hlook : alookup bosses name with
    | none => exact ih bosses hb
    | some e =>
      dsimp only
      have hmem : (name, e) ∈ bosses := alookup_mem bosses name e hlook
      have hWFe : BufWF cap e.recentTweets := hb (name, e) hmem
      obtain ⟨buf, hpush, hbufWF⟩ := push_wf cap hcap e.recentTweets hWFe tweet
      rw [hpush]
      dsimp only
      refine ih _ ?_
      intro q hq
      rcases mem_aupdate _ _ _ q hq with h1 | ⟨q0, hq0, _, hq2⟩
      · exact hb q h1
      · rw [hq2]
        exact hbufWF

theorem handleRaidInfoOccupied_wf {σ Item : Type} (w0 : Worker σ Item)
    (mapped : Option Item) (info : RaidInfo) (value3 : RaidBossEntry σ)
    (hashReqs : List (BossName × BossImageUrl))
    (hpos : 1 ≤ w0.tweetHistorySize)
    (hb : ∀ p ∈ w0.bosses, BufWF w0.tweetHistorySize p.2.recentTweets)
    (hv : BufWF w0.tweetHistorySize value3.recentTweets) :
    ∃ w' log, handleRaidInfoOccupied w0 mapped info value3 hashReqs =
        some (w', log) ∧ BuffersWF w' := by
  rw [handleRaidInfoOccupied]
  obtain ⟨buf, hpush, hbufWF⟩ := push_wf _ hpos _ hv info.tweet
  rw [hpush]
  dsimp only
  obtain ⟨bosses2, hst, hb2⟩ := sendToTranslations_wf w0.tweetHistorySize hpos
    w0.sendImpl mapped info.tweet value3.bossData.boss.translations
    (aupdate w0.bosses info.tweet.bossName
      (fun _ => { value3 with recentTweets := buf }))
    (fun q hq => by
      rcases mem_aupdate _ _ _ q hq with h1 | ⟨q0, hq0, _, hq2⟩
      · exact hb q h1
      · rw [hq2]
        exact hbufWF)
  rw [hst]
  exact ⟨_, _, rfl, hpos, hb2⟩

theorem handleRaidInfo_wf {σ Item : Type} (w : Worker σ Item)
    (info : RaidInfo) (hWF : BuffersWF w) :
    ∃ w' log, w.handleRaidInfo info = some (w', log) ∧ BuffersWF w' := by
  obtain ⟨hpos, hb⟩ := hWF
  simp only [Worker.handleRaidInfo]
  cases hboss : alookup w.bosses info.tweet.bossName with
  | some value =>
    dsimp only
    have hWFv : BufWF w.tweetHistorySize value.recentTweets :=
      hb _ (alookup_mem w.bosses info.tweet.bossName value hboss)
    by_cases himg : value.bossData.boss.image = none
    · rw [if_pos himg]
      cases himage : info.image with
      | none =>
        dsimp only
        exact handleRaidInfoOccupied_wf _ _ info _ _ hpos hb hWFv
      | some imageUrl =>
        dsimp only
        exact handleRaidInfoOccupied_wf _ _ info _ _ hpos hb hWFv
    · rw [if_neg himg]
      dsimp only
      exact handleRaidInfoOccupied_wf _ _ info _ _ hpos hb hWFv
  | none =>
    dsimp only
    have hWF0 : BufWF w.tweetHistorySize
        (CircularBuffer.withCapacity RaidTweet w.tweetHistorySize) :=
      ⟨rfl, hpos, Nat.zero_le _⟩
    obtain ⟨buf, hpush, hbufWF⟩ :=
      push_wf w.tweetHistorySize hpos _ hWF0 info.tweet
    rw [hpush]
    refine ⟨_, _, rfl, hpos, ?_⟩
    intro q hq
    rcases List.mem_append.mp hq with h1 | h1
    · exact hb q h1
    · rw [List.mem_singleton] at h1
      subst h1
      exact hbufWF

end Worker

/-- **C9 (amended).** The builder performs NO validation of the history
size: `with_history_size` stores any value, `build` is total and there is
no `BadConfig` error kind in the source.  For every history size that is at
least 1, handling any sequence of `NewRaid` events (of any length) never
panics; with history size 0, the very first `NewRaid` for a new boss panics
inside `CircularBuffer::push` (see the counterexample). -/
theorem C9_new_raids_no_panic {σ Item : Type} (b : ClientBuilder σ Item)
    (infos : List RaidInfo) (hpos : 1 ≤ b.historySize) :
    ∃ w', (b.build).processEvents (infos.map Event.newRaidInfo) = some w' := by
  have hgen : ∀ (w : Worker σ Item) (infos2 : List RaidInfo), BuffersWF w →
      ∃ w', w.processEvents (infos2.map Event.newRaidInfo) = some w' := by
    intro w infos2
    induction infos2 generalizing w with
    | nil => exact fun _ => ⟨w, rfl⟩
    | cons info rest ih =>
      intro hWF
      obtain ⟨w1, log, hstep, hWF1⟩ := Worker.handleRaidInfo_wf w info hWF
      obtain ⟨w', hrest⟩ := ih w1 hWF1
      refine ⟨w', ?_⟩
      rw [List.map_cons, Worker.processEvents, List.foldlM_cons]
      have hev : w.handleEvent (Event.newRaidInfo info) = some (w1, log) :=
        hstep
      rw [hev]
      exact hrest
  refine hgen b.build infos ⟨?_, ?_⟩
  · exact hpos
  · intro p hp
    obtain ⟨md, hmd, hpq⟩ := List.mem_map.mp hp
    rw [← hpq]
    exact ⟨rfl, hpos, Nat.zero_le _⟩

/-- A minimal raid invitation used by the C9 theorems. -/
def raidInfoX : RaidInfo :=
  { tweet := { tweetId := 1, bossName := "Lv60 Ozorotter",
               raidId := "ABCD1234", user := "u", userImage := none,
               text := none, createdAt := 0, language := Language.english },
    image := none }

/-- **C9, counterexample to the unamended claim.** `with_history_size 0` is
accepted by the builder (there is no `BadConfig` rejection — the builder
cannot fail), the worker is built, and the very first `NewRaid` event
panics in `CircularBuffer::push`. -/
theorem C9_history_size_zero_panics :
    ((builderU.withHistorySize 0).historySize = 0) ∧
    (((builderU.withHistorySize 0).build).tweetHistorySize = 0) ∧
    (((builderU.withHistorySize 0).build).processEvents
      [Event.newRaidInfo raidInfoX] = none) :=
  ⟨rfl, rfl, rfl⟩

/-- Witness for C9 with a positive history size. -/
theorem C9_new_raids_no_panic_witness :
    1 ≤ builderU.historySize ∧
    ∃ w', (builderU.build).processEvents
      ([raidInfoX, raidInfoX].map Event.newRaidInfo) = some w' :=
  ⟨by decide, C9_new_raids_no_panic builderU [raidInfoX, raidInfoX] (by decide)⟩

/-! ## The catalog scan of `handle_image_hash`, characterized (for C1, C4) -/

namespace Worker

theorem scanFold_bosses {σ Item : Type} (f : Message → Option Item)
    (sendImpl : σ → Item → Option σ) (bossName : BossName) (level : Int)
    (language : Language) (imageHash : ImageHash)
    (l : List (BossName × RaidBossEntry σ)) (subs : Broadcast σ)
    (log : List Message) (ms : List BossName) :
    (scanFold f sendImpl bossName level language imageHash l subs log ms).bosses =
      l.map (fun p =>
        if p.2.bossData.boss.level = level ∧
            p.2.bossData.boss.language ≠ language ∧
            p.2.bossData.imageHash = some imageHash then
          (p.1, { p.2 with bossData.boss.translations :=
            (insertName bossName p.2.bossData.boss.translations) })
        else p) := by
  induction l generalizing subs log ms with
  | nil => rfl
  | cons p rest ih =>
    obtain ⟨n, e⟩ := p
    by_cases hc : e.bossData.boss.level = level ∧
        e.bossData.boss.language ≠ language ∧
        e.bossData.imageHash = some imageHash
    · rw [scanFold, if_pos hc]
      dsimp only
      rw [ih, List.map_cons]
      rw [if_pos hc]
    · rw [scanFold, if_neg hc]
      dsimp only
      rw [ih, List.map_cons]
      rw [if_neg hc]

theorem scanFold_matched {σ Item : Type} (f : Message → Option Item)
    (sendImpl : σ → Item → Option σ) (bossName : BossName) (level : Int)
    (language : Language) (imageHash : ImageHash)
    (l : List (BossName × RaidBossEntry σ)) (subs : Broadcast σ)
    (log : List Message) (ms : List BossName) :
    (scanFold f sendImpl bossName level language imageHash l subs log ms).matched =
      ms ++ l.filterMap (fun p =>
        if p.2.bossData.boss.level = level ∧
            p.2.bossData.boss.language ≠ language ∧
            p.2.bossData.imageHash = some imageHash then
          some p.2.bossData.boss.name
        else none) := by
  induction l generalizing subs log ms with
  | nil => simp [scanFold]
  | cons p rest ih =>
    obtain ⟨n, e⟩ := p
    by_cases hc : e.bossData.boss.level = level ∧
        e.bossData.boss.language ≠ language ∧
        e.bossData.imageHash = some imageHash
    · rw [scanFold, if_pos hc]
      dsimp only
      rw [ih, List.filterMap_cons]
      rw [if_pos hc]
      simp
    · rw [scanFold, if_neg hc]
      dsimp only
      rw [ih, List.filterMap_cons]
      rw [if_neg hc]

theorem scanFold_log {σ Item : Type} (f : Message → Option Item)
    (sendImpl : σ → Item → Option σ) (bossName : BossName) (level : Int)
    (language : Language) (imageHash : ImageHash)
    (l : List (BossName × RaidBossEntry σ)) (subs : Broadcast σ)
    (log : List Message) (ms : List BossName) :
    (scanFold f sendImpl bossName level language imageHash l subs log ms).log =
      log ++ l.filterMap (fun p =>
        if p.2.bossData.boss.level = level ∧
            p.2.bossData.boss.language ≠ language ∧
            p.2.bossData.imageHash = some imageHash then
          some (Message.bossUpdate
            ({ p.2 with bossData.boss.translations :=
              (insertName bossName p.2.bossData.boss.translations) }).bossData.boss)
        else none) := by
  induction l generalizing subs log ms with
  | nil => simp [scanFold]
  | cons p rest ih =>
    obtain ⟨n, e⟩ := p
    by_cases hc : e.bossData.boss.level = level ∧
        e.bossData.boss.language ≠ language ∧
        e.bossData.imageHash = some imageHash
    · rw [scanFold, if_pos hc]
      dsimp only
      rw [ih, List.filterMap_cons]
      rw [if_pos hc]
      simp
    · rw [scanFold, if_neg hc]
      dsimp only
      rw [ih, List.filterMap_cons]
      rw [if_neg hc]

end Worker

/-! ## C4: the cached boss list -/

/-- The bosses currently in the catalog, in iteration order — the argument
of the `Message::BossList` built by `update_cached_boss_list`. -/
def mapBoss {σ : Type} (l : List (BossName × RaidBossEntry σ)) :
    List RaidBoss :=
  l.map (fun p => p.2.bossData.boss)

/-- The claimed invariant: the cached value equals the message adapter
applied to `BossList` over the bosses currently in the catalog. -/
def CacheInv {σ Item : Type} (w : Worker σ Item) : Prop :=
  w.cachedBossList =
    w.filterMapMessage (Message.bossList (mapBoss w.bosses))

theorem cacheInv_updateCached {σ Item : Type} (w : Worker σ Item) :
    CacheInv (Worker.updateCachedBossList w) := rfl

theorem aupdate_mapBoss_of_preserve {σ : Type}
    (l : List (BossName × RaidBossEntry σ)) (k : BossName)
    (f : RaidBossEntry σ → RaidBossEntry σ)
    (hf : ∀ e, (f e).bossData.boss = e.bossData.boss) :
    mapBoss (aupdate l k f) = mapBoss l := by
  rw [mapBoss, aupdate, List.map_map, mapBoss]
  apply List.map_congr_left
  intro p _
  by_cases h : p.1 = k <;> simp [h, hf]

theorem aupdate_const_mapBoss {σ : Type}
    (l : List (BossName × RaidBossEntry σ)) (k : BossName)
    (value v : RaidBossEntry σ)
    (hKeys : (l.map Prod.fst).Nodup)
    (hlook : alookup l k = some value)
    (hb : v.bossData.boss = value.bossData.boss) :
    mapBoss (aupdate l k (fun _ => v)) = mapBoss l := by
  rw [mapBoss, aupdate, List.map_map, mapBoss]
  apply List.map_congr_left
  intro p hp
  by_cases h : p.1 = k
  · have h2 := alookup_of_mem_nodup l p hKeys hp
    rw [h, hlook] at h2
    have h3 : p.2 = value := (Option.some.inj h2).symm
    simp [h, hb, h3]
  · simp [h]

theorem aupdate_keys_nodup {σ : Type}
    (l : List (BossName × RaidBossEntry σ)) (k : BossName)
    (f : RaidBossEntry σ → RaidBossEntry σ)
    (hKeys : (l.map Prod.fst).Nodup) :
    ((aupdate l k f).map Prod.fst).Nodup := by
  rw [aupdate_keys]
  exact hKeys

namespace Worker

theorem sendToTranslations_mapBoss {σ Item : Type}
    (sendImpl : σ → Item → Option σ) (mapped : Option Item)
    (tweet : RaidTweet) (names : List BossName)
    (bosses bosses' : List (BossName × RaidBossEntry σ))
    (hKeys : (bosses.map Prod.fst).Nodup)
    (h : sendToTranslations sendImpl mapped tweet names bosses =
      some bosses') :
    mapBoss bosses' = mapBoss bosses ∧
      bosses'.map Prod.fst = bosses.map Prod.fst := by
  induction names generalizing bosses with
  | nil =>
    rw [sendToTranslations] at h
    injection h with h2
    subst h2
    exact ⟨rfl, rfl⟩
  | cons name rest ih =>
    rw [sendToTranslations] at h
    cases hlook : alookup bosses name with
    | none =>
      rw [hlook] at h
      exact ih bosses hKeys h
    | some e =>
      rw [hlook] at h
      dsimp only at h
      cases hpush : ({ e with broadcast := (Broadcast.maybeSend sendImpl
          e.broadcast mapped) } : RaidBossEntry σ).recentTweets.push tweet with
      | none => rw [hpush] at h; cases h
      | some buf =>
        rw [hpush] at h
        dsimp only at h
        have hKeys2 : ((aupdate bosses name (fun _ =>
            ({ bossData := e.bossData, recentTweets := buf,
               broadcast := Broadcast.maybeSend sendImpl e.broadcast mapped } :
              RaidBossEntry σ))).map Prod.fst).Nodup :=
          aupdate_keys_nodup _ _ _ hKeys
        obtain ⟨h1, h2⟩ := ih _ hKeys2 h
        rw [h1, h2]
        constructor
        · exact aupdate_const_mapBoss bosses name e _ hKeys hlook rfl
        · rw [aupdate_keys]

end Worker

namespace Worker

theorem handleImageHash_cacheInv {σ Item : Type} (w : Worker σ Item)
    (bossName : BossName) (imageHash : ImageHash) (hInv : CacheInv w) :
    CacheInv (w.handleImageHash bossName imageHash).1 := by
  rw [Worker.handleImageHash]
  cases hboss : alookup w.bosses bossName with
  | none => exact hInv
  | some entry =>
    dsimp only
    by_cases hm : (scanFold w.filterMapMessage w.sendImpl bossName
        entry.bossData.boss.level entry.bossData.boss.language imageHash
        (aupdate w.bosses bossName
          (fun e => { e with bossData.imageHash := some imageHash }))
        w.subscribers [] []).matched.isEmpty
    · rw [if_pos hm]
      have hm2 : (scanFold w.filterMapMessage w.sendImpl bossName
          entry.bossData.boss.level entry.bossData.boss.language imageHash
          (aupdate w.bosses bossName
            (fun e => { e with bossData.imageHash := some imageHash }))
          w.subscribers [] []).matched = [] := by
        rwa [List.isEmpty_iff] at hm
      rw [scanFold_matched, List.nil_append] at hm2
      have hcond : ∀ p ∈ aupdate w.bosses bossName
          (fun e => { e with bossData.imageHash := some imageHash }),
          ¬ (p.2.bossData.boss.level = entry.bossData.boss.level ∧
            p.2.bossData.boss.language ≠ entry.bossData.boss.language ∧
            p.2.bossData.imageHash = some imageHash) := by
        intro p hp hc
        have h2 := List.filterMap_eq_nil_iff.mp hm2 p hp
        rw [if_pos hc] at h2
        cases h2
      have hbosses : (scanFold w.filterMapMessage w.sendImpl bossName
          entry.bossData.boss.level entry.bossData.boss.language imageHash
          (aupdate w.bosses bossName
            (fun e => { e with bossData.imageHash := some imageHash }))
          w.subscribers [] []).bosses =
          aupdate w.bosses bossName
            (fun e => { e with bossData.imageHash := some imageHash }) := by
        rw [scanFold_bosses]
        refine (List.map_congr_left ?_).trans (List.map_id _)
        intro p hp
        rw [if_neg (hcond p hp)]
        rfl
      show w.cachedBossList = w.filterMapMessage (Message.bossList (mapBoss
        (scanFold w.filterMapMessage w.sendImpl bossName
          entry.bossData.boss.level entry.bossData.boss.language imageHash
          (aupdate w.bosses bossName
            (fun e => { e with bossData.imageHash := some imageHash }))
          w.subscribers [] []).bosses))
      rw [hbosses, aupdate_mapBoss_of_preserve w.bosses bossName
        (fun e => { e with bossData.imageHash := some imageHash })
        (fun e => rfl)]
      exact hInv
    · rw [if_neg hm]
      split
      · exact cacheInv_updateCached _
      · exact cacheInv_updateCached _

theorem handleRaidInfoOccupied_cacheInv {σ Item : Type} (w0 : Worker σ Item)
    (mapped : Option Item) (info : RaidInfo) (value value3 : RaidBossEntry σ)
    (hashReqs : List (BossName × BossImageUrl)) (w' : Worker σ Item)
    (log : List Message)
    (hKeys : (w0.bosses.map Prod.fst).Nodup)
    (hlook : alookup w0.bosses info.tweet.bossName = some value)
    (hb3 : value3.bossData.boss = value.bossData.boss)
    (hInv : CacheInv w0)
    (h : Worker.handleRaidInfoOccupied w0 mapped info value3 hashReqs =
      some (w', log)) :
    CacheInv w' := by
  rw [Worker.handleRaidInfoOccupied] at h
  cases hpush : value3.recentTweets.push info.tweet with
  | none => rw [hpush] at h; cases h
  | some buf =>
    rw [hpush] at h
    dsimp only at h
    cases hst : sendToTranslations w0.sendImpl mapped info.tweet
        value3.bossData.boss.translations
        (aupdate w0.bosses info.tweet.bossName
          (fun _ => { value3 with recentTweets := buf })) with
    | none => rw [hst] at h; cases h
    | some bosses2 =>
      rw [hst] at h
      obtain ⟨hw, -⟩ := some_pair_eq h
      subst hw
      have hKeys1 : ((aupdate w0.bosses info.tweet.bossName
          (fun _ => { value3 with recentTweets := buf })).map Prod.fst).Nodup :=
        aupdate_keys_nodup _ _ _ hKeys
      obtain ⟨hmb, -⟩ := Worker.sendToTranslations_mapBoss w0.sendImpl mapped
        info.tweet value3.bossData.boss.translations _ bosses2 hKeys1 hst
      have hmb2 : mapBoss (aupdate w0.bosses info.tweet.bossName
          (fun _ => { value3 with recentTweets := buf })) = mapBoss w0.bosses :=
        aupdate_const_mapBoss _ _ value _ hKeys hlook hb3
      show w0.cachedBossList =
        w0.filterMapMessage (Message.bossList (mapBoss bosses2))
      rw [hmb, hmb2]
      exact hInv

theorem handleRaidInfo_cacheInv {σ Item : Type} (w : Worker σ Item)
    (info : RaidInfo) (w' : Worker σ Item) (log : List Message)
    (hKeys : (w.bosses.map Prod.fst).Nodup)
    (hInv : CacheInv w)
    (hNoAcq : ∀ e, alookup w.bosses info.tweet.bossName = some e →
      e.bossData.boss.image = none → info.image = none)
    (h : w.handleRaidInfo info = some (w', log)) : CacheInv w' := by
  simp only [Worker.handleRaidInfo] at h
  cases hboss : alookup w.bosses info.tweet.bossName with
  | none =>
    rw [hboss] at h
    dsimp only at h
    split at h
    · cases h
    · obtain ⟨hw, -⟩ := some_pair_eq h
      subst hw
      exact cacheInv_updateCached _
  | some value =>
    rw [hboss] at h
    dsimp only at h
    by_cases himg : value.bossData.boss.image = none
    · rw [if_pos himg] at h
      have himage : info.image = none := hNoAcq value hboss himg
      rw [himage] at h
      dsimp only at h
      exact handleRaidInfoOccupied_cacheInv _ _ info value _ _ w' log
        (by exact hKeys) (by exact hboss) (by exact rfl) (by exact hInv) h
    · rw [if_neg himg] at h
      exact handleRaidInfoOccupied_cacheInv _ _ info value _ _ w' log
        (by exact hKeys) (by exact hboss) (by exact rfl) (by exact hInv) h

theorem follow_cacheInv {σ Item : Type} (w : Worker σ Item) (id : SubId)
    (bossName : BossName) (hInv : CacheInv w) :
    CacheInv (w.follow id bossName) := by
  rw [Worker.follow]
  cases hget : w.subscribers.get id with
  | none => exact hInv
  | some subscriber =>
    cases hboss : alookup w.bosses bossName with
    | none =>
      cases hreq : alookup w.requestedBosses bossName with
      | some g => exact hInv
      | none => exact hInv
    | some e =>
      dsimp only
      show w.cachedBossList = w.filterMapMessage (Message.bossList (mapBoss
        (aupdate w.bosses bossName
          (fun e => { e with broadcast := e.broadcast.subscribe id subscriber }))))
      rw [aupdate_mapBoss_of_preserve w.bosses bossName
        (fun e => { e with broadcast := e.broadcast.subscribe id subscriber })
        (fun e => rfl)]
      exact hInv

theorem unfollow_cacheInv {σ Item : Type} (w : Worker σ Item) (id : SubId)
    (bossName : BossName) (hInv : CacheInv w) :
    CacheInv (w.unfollow id bossName) := by
  rw [Worker.unfollow]
  cases hboss : alookup w.bosses bossName with
  | some e =>
    dsimp only
    show w.cachedBossList = w.filterMapMessage (Message.bossList (mapBoss
      (aupdate w.bosses bossName
        (fun e => { e with broadcast := e.broadcast.unsubscribe id }))))
    rw [aupdate_mapBoss_of_preserve w.bosses bossName
      (fun e => { e with broadcast := e.broadcast.unsubscribe id })
      (fun e => rfl)]
    exact hInv
  | none =>
    cases hreq : alookup w.requestedBosses bossName with
    | none => exact hInv
    | some g =>
      dsimp only
      by_cases hstill : (g.unsubscribe id).isEmpty
      · rw [if_pos hstill]
        exact hInv
      · rw [if_neg hstill]
        exact hInv

end Worker

/-- The side condition of the amended C4: which events the cache invariant
survives.  `ClientRemoveBosses` is excluded outright; a `NewRaid` is
excluded exactly when it would record a first image on an existing catalog
entry (the handler then changes `RaidBoss::image` without rebuilding the
cache). -/
def CachePreserving {σ Item : Type} (w : Worker σ Item) : Event σ → Prop
  | Event.clientRemoveBosses _ => False
  | Event.newRaidInfo info =>
    ∀ e, alookup w.bosses info.tweet.bossName = some e →
      e.bossData.boss.image = none → info.image = none
  | _ => True

/-- **C4 (amended).** The cached boss list equals the adapter applied to
`BossList` over the current catalog right after `build`, and this is
preserved by every handled event EXCEPT `ClientRemoveBosses` (which removes
entries without rebuilding the cache — see the counterexample) and except a
`NewRaid` that stores a first image on an existing boss (which changes a
`RaidBoss` value without rebuilding).  New bosses and translation updates
do rebuild the cache synchronously inside their handlers. -/
theorem C4_cached_boss_list {σ Item : Type} :
    (∀ b : ClientBuilder σ Item, CacheInv b.build) ∧
    (∀ (w : Worker σ Item) (e : Event σ) (w' : Worker σ Item)
        (log : List Message),
      (w.bosses.map Prod.fst).Nodup → CacheInv w → CachePreserving w e →
      w.handleEvent e = some (w', log) → CacheInv w') := by
  constructor
  · intro b
    exact cacheInv_updateCached _
  · intro w e w' log hKeys hInv hP h
    cases e with
    | newRaidInfo info =>
      exact Worker.handleRaidInfo_cacheInv w info w' log hKeys hInv hP h
    | newImageHash bossName imageHash =>
      rw [Worker.handleEvent] at h
      injection h with h2
      have hw : (w.handleImageHash bossName imageHash).1 = w' :=
        congrArg Prod.fst h2
      subst hw
      exact Worker.handleImageHash_cacheInv w bossName imageHash hInv
    | subscriberFollow id bossName =>
      rw [Worker.handleEvent] at h
      obtain ⟨hw, -⟩ := some_pair_eq h
      subst hw
      exact Worker.follow_cacheInv w id bossName hInv
    | subscriberUnfollow id bossName =>
      rw [Worker.handleEvent] at h
      obtain ⟨hw, -⟩ := some_pair_eq h
      subst hw
      exact Worker.unfollow_cacheInv w id bossName hInv
    | subscriberGetBosses id =>
      rw [Worker.handleEvent] at h
      obtain ⟨hw, -⟩ := some_pair_eq h
      subst hw
      exact hInv
    | subscriberGetTweets id bossName =>
      rw [Worker.handleEvent] at h
      cases hget : w.subscribers.get id with
      | none =>
        rw [hget] at h
        dsimp only at h
        obtain ⟨hw, -⟩ := some_pair_eq h
        subst hw
        exact hInv
      | some s =>
        rw [hget] at h
        dsimp only at h
        obtain ⟨hw, -⟩ := some_pair_eq h
        subst hw
        exact hInv
    | subscriberHeartbeat =>
      rw [Worker.handleEvent] at h
      obtain ⟨hw, -⟩ := some_pair_eq h
      subst hw
      exact hInv
    | subscriberSubscribe sub =>
      rw [Worker.handleEvent] at h
      obtain ⟨hw, -⟩ := some_pair_eq h
      subst hw
      exact hInv
    | subscriberUnsubscribe id =>
      rw [Worker.handleEvent] at h
      obtain ⟨hw, -⟩ := some_pair_eq h
      subst hw
      exact hInv
    | clientGetBosses =>
      rw [Worker.handleEvent] at h
      obtain ⟨hw, -⟩ := some_pair_eq h
      subst hw
      exact hInv
    | clientGetTweets bossName =>
      rw [Worker.handleEvent] at h
      obtain ⟨hw, -⟩ := some_pair_eq h
      subst hw
      exact hInv
    | clientExportMetadata =>
      rw [Worker.handleEvent] at h
      obtain ⟨hw, -⟩ := some_pair_eq h
      subst hw
      exact hInv
    | clientExportMetrics =>
      rw [Worker.handleEvent] at h
      obtain ⟨hw, -⟩ := some_pair_eq h
      subst hw
      exact hInv
    | clientRemoveBosses pred => exact hP.elim
    | clientReadError =>
      rw [Worker.handleEvent] at h
      obtain ⟨hw, -⟩ := some_pair_eq h
      subst hw
      exact hInv

/-- **C4, counterexample to the unamended claim.** On the concrete two-boss
worker (whose cache does satisfy the invariant), handling
`ClientRemoveBosses` with an all-true predicate empties the catalog but
leaves the cached boss list at its old two-boss value, which differs from
the adapter applied to the now-empty `BossList`: `remove_bosses` never
calls `update_cached_boss_list`. -/
theorem C4_cached_boss_list_counterexample :
    ((workerAB.handleEvent (Event.clientRemoveBosses (fun _ => true))).map
      (fun p => (p.1.bosses, p.1.cachedBossList,
        p.1.filterMapMessage (Message.bossList (mapBoss p.1.bosses)))) =
      some ([],
        some (Message.bossList
          [bossAEntry.bossData.boss, bossBEntry.bossData.boss]),
        some (Message.bossList []))) ∧
    (some (Message.bossList
        [bossAEntry.bossData.boss, bossBEntry.bossData.boss]) ≠
      (some (Message.bossList []) : Option Message)) := by
  exact ⟨by decide, by decide⟩

/-- Witness for the amended C4 at a concrete worker and event. -/
theorem C4_cached_boss_list_witness :
    ((workerAB.bosses.map Prod.fst).Nodup) ∧
    (CacheInv workerAB) ∧
    (∃ w' log,
      workerAB.handleEvent (Event.subscriberFollow 0 "A") = some (w', log) ∧
      CacheInv w') := by
  have hInv : CacheInv workerAB := by
    show workerAB.cachedBossList =
      workerAB.filterMapMessage (Message.bossList (mapBoss workerAB.bosses))
    decide
  refine ⟨by decide, hInv, ?_⟩
  have hs : (workerAB.handleEvent (Event.subscriberFollow 0 "A")).isSome =
      true := rfl
  cases h : workerAB.handleEvent (Event.subscriberFollow 0 "A") with
  | none => rw [h] at hs; cases hs
  | some pr =>
    obtain ⟨w2, log2⟩ := pr
    exact ⟨w2, log2, rfl,
      (C4_cached_boss_list).2 workerAB (Event.subscriberFollow 0 "A") w2
        log2 (by decide) hInv trivial h⟩

/-! ## C1: translation symmetry of the catalog -/

theorem alookup_aupdate_self {β : Type} (l : List (String × β)) (k : String)
    (f : β → β) :
    alookup (aupdate l k f) k = (alookup l k).map f := by
  induction l with
  | nil => rfl
  | cons p rest ih =>
    by_cases hp : p.1 = k
    · simp [aupdate, alookup, hp]
    · simpa [aupdate, alookup, hp] using ih

theorem alookup_aupdate_ne {β : Type} (l : List (String × β)) (k k' : String)
    (f : β → β) (hne : ¬ k = k') :
    alookup (aupdate l k f) k' = alookup l k' := by
  induction l with
  | nil => rfl
  | cons p rest ih =>
    have hne' : ¬ k' = k := fun hh => hne hh.symm
    by_cases hp : p.1 = k
    · simpa [aupdate, alookup, hp, hne] using ih
    · by_cases hq : p.1 = k'
      · simp [aupdate, alookup, hp, hq, hne']
      · simpa [aupdate, alookup, hp, hq] using ih

/-- Looking a key up after the `handle_image_hash` scan pass: the stored
entry is the old one, with the translation insertion applied exactly when
the entry matched the scan condition. -/
theorem alookup_scanmap {σ : Type} (level : Int) (language : Language)
    (imageHash : ImageHash) (bossName : BossName)
    (l : List (BossName × RaidBossEntry σ)) (k : String) :
    alookup (l.map (fun p =>
        if p.2.bossData.boss.level = level ∧
            p.2.bossData.boss.language ≠ language ∧
            p.2.bossData.imageHash = some imageHash then
          (p.1, { p.2 with bossData.boss.translations :=
            (insertName bossName p.2.bossData.boss.translations) })
        else p)) k =
      (alookup l k).map (fun v =>
        if v.bossData.boss.level = level ∧
            v.bossData.boss.language ≠ language ∧
            v.bossData.imageHash = some imageHash then
          { v with bossData.boss.translations :=
            (insertName bossName v.bossData.boss.translations) }
        else v) := by
  induction l with
  | nil => rfl
  | cons p rest ih =>
    obtain ⟨n, e⟩ := p
    by_cases hc : e.bossData.boss.level = level ∧
        e.bossData.boss.language ≠ language ∧
        e.bossData.imageHash = some imageHash <;>
      by_cases hk : n = k <;>
        simp [alookup, hc, hk, ih]

theorem mem_insertName_self (n : BossName) (l : List BossName) :
    n ∈ insertName n l := by
  rw [insertName]
  by_cases h : n ∈ l
  · rwa [if_pos h]
  · rw [if_neg h]
    exact List.mem_append_right _ (List.mem_singleton.mpr rfl)

theorem mem_insertName_of_mem (m n : BossName) (l : List BossName)
    (h : m ∈ l) : m ∈ insertName n l := by
  rw [insertName]
  by_cases hn : n ∈ l
  · rwa [if_pos hn]
  · rw [if_neg hn]
    exact List.mem_append_left _ h

theorem mem_extendNames_of_mem_left (l ns : List BossName) (m : BossName)
    (h : m ∈ l) : m ∈ extendNames l ns := by
  induction ns generalizing l with
  | nil => exact h
  | cons n rest ih =>
    show m ∈ extendNames (insertName n l) rest
    exact ih _ (mem_insertName_of_mem m n l h)

theorem mem_extendNames_of_mem_right (l ns : List BossName) (m : BossName)
    (h : m ∈ ns) : m ∈ extendNames l ns := by
  induction ns generalizing l with
  | nil => cases h
  | cons n rest ih =>
    show m ∈ extendNames (insertName n l) rest
    rcases List.mem_cons.mp h with h1 | h1
    · subst h1
      exact mem_extendNames_of_mem_left _ _ _ (mem_insertName_self m l)
    · exact ih _ h1

/-- `handle_image_hash` keeps every stored key present, preserving the
entry's boss name, level and language; the hashed boss itself ends up with
the new hash stored. -/
theorem handleImageHash_alookup {σ Item : Type} (w : Worker σ Item)
    (nm : BossName) (hsh : ImageHash) (k : String)
    (eK : RaidBossEntry σ) (hK : alookup w.bosses k = some eK) :
    ∃ eK', alookup (w.handleImageHash nm hsh).1.bosses k = some eK' ∧
      eK'.bossData.boss.name = eK.bossData.boss.name ∧
      eK'.bossData.boss.level = eK.bossData.boss.level ∧
      eK'.bossData.boss.language = eK.bossData.boss.language ∧
      (k = nm → eK'.bossData.imageHash = some hsh) := by
  rw [Worker.handleImageHash]
  cases hname : alookup w.bosses nm with
  | none =>
    dsimp only
    refine ⟨eK, hK, rfl, rfl, rfl, ?_⟩
    intro hkn
    rw [hkn, hname] at hK
    cases hK
  | some entry =>
    dsimp only
    by_cases hkn : k = nm
    · subst hkn
      rw [hK] at hname
      injection hname with hentry
      subst hentry
      have halk1 : alookup (aupdate w.bosses k
          (fun e => { e with bossData.imageHash := some hsh })) k =
          some ({ eK with bossData.imageHash := (some hsh) }) := by
        rw [alookup_aupdate_self, hK]
        rfl
      have hbosses := Worker.scanFold_bosses w.filterMapMessage w.sendImpl k
        eK.bossData.boss.level eK.bossData.boss.language hsh
        (aupdate w.bosses k (fun e => { e with bossData.imageHash := some hsh }))
        w.subscribers [] []
      have hex : ∃ v, alookup (Worker.scanFold w.filterMapMessage w.sendImpl k
          eK.bossData.boss.level eK.bossData.boss.language hsh
          (aupdate w.bosses k
            (fun e => { e with bossData.imageHash := some hsh }))
          w.subscribers [] []).bosses k = some v ∧
          v.bossData.boss.name = eK.bossData.boss.name ∧
          v.bossData.boss.level = eK.bossData.boss.level ∧
          v.bossData.boss.language = eK.bossData.boss.language ∧
          v.bossData.imageHash = some hsh := by
        rw [hbosses, alookup_scanmap, halk1]
        simp only [Option.map_some']
        split
        · exact ⟨_, rfl, rfl, rfl, rfl, rfl⟩
        · exact ⟨_, rfl, rfl, rfl, rfl, rfl⟩
      obtain ⟨v, hv, hvname, hvlevel, hvlang, hvhash⟩ := hex
      by_cases hm : (Worker.scanFold w.filterMapMessage w.sendImpl k
          eK.bossData.boss.level eK.bossData.boss.language hsh
          (aupdate w.bosses k
            (fun e => { e with bossData.imageHash := some hsh }))
          w.subscribers [] []).matched.isEmpty
      · rw [if_pos hm]
        exact ⟨v, hv, hvname, hvlevel, hvlang, fun _ => hvhash⟩
      · rw [if_neg hm]
        rw [hv]
        dsimp only [Worker.updateCachedBossList]
        refine ⟨{ v with bossData.boss.translations :=
          (extendNames v.bossData.boss.translations
            (Worker.scanFold w.filterMapMessage w.sendImpl k
              eK.bossData.boss.level eK.bossData.boss.language hsh
              (aupdate w.bosses k
                (fun e => { e with bossData.imageHash := some hsh }))
              w.subscribers [] []).matched) },
          ?_, hvname, hvlevel, hvlang, fun _ => hvhash⟩
        rw [alookup_aupdate_self, hv]
        rfl
    · have halk1 : alookup (aupdate w.bosses nm
          (fun e => { e with bossData.imageHash := some hsh })) k =
          some eK := by
        rw [alookup_aupdate_ne _ _ _ _ (fun hh => hkn hh.symm), hK]
      have hbosses := Worker.scanFold_bosses w.filterMapMessage w.sendImpl nm
        entry.bossData.boss.level entry.bossData.boss.language hsh
        (aupdate w.bosses nm (fun e => { e with bossData.imageHash := some hsh }))
        w.subscribers [] []
      have hex : ∃ v, alookup (Worker.scanFold w.filterMapMessage w.sendImpl nm
          entry.bossData.boss.level entry.bossData.boss.language hsh
          (aupdate w.bosses nm
            (fun e => { e with bossData.imageHash := some hsh }))
          w.subscribers [] []).bosses k = some v ∧
          v.bossData.boss.name = eK.bossData.boss.name ∧
          v.bossData.boss.level = eK.bossData.boss.level ∧
          v.bossData.boss.language = eK.bossData.boss.language := by
        rw [hbosses, alookup_scanmap, halk1]
        simp only [Option.map_some']
        split
        · exact ⟨_, rfl, rfl, rfl, rfl⟩
        · exact ⟨_, rfl, rfl, rfl, rfl⟩
      obtain ⟨v, hv, hvname, hvlevel, hvlang⟩ := hex
      by_cases hm : (Worker.scanFold w.filterMapMessage w.sendImpl nm
          entry.bossData.boss.level entry.bossData.boss.language hsh
          (aupdate w.bosses nm
            (fun e => { e with bossData.imageHash := some hsh }))
          w.subscribers [] []).matched.isEmpty
      · rw [if_pos hm]
        exact ⟨v, hv, hvname, hvlevel, hvlang, fun hh => absurd hh hkn⟩
      · rw [if_neg hm]
        cases hname2 : alookup (Worker.scanFold w.filterMapMessage w.sendImpl nm
            entry.bossData.boss.level entry.bossData.boss.language hsh
            (aupdate w.bosses nm
              (fun e => { e with bossData.imageHash := some hsh }))
            w.subscribers [] []).bosses nm with
        | none =>
          dsimp only [Worker.updateCachedBossList]
          exact ⟨v, hv, hvname, hvlevel, hvlang, fun hh => absurd hh hkn⟩
        | some e2 =>
          dsimp only [Worker.updateCachedBossList]
          refine ⟨v, ?_, hvname, hvlevel, hvlang, fun hh => absurd hh hkn⟩
          rw [alookup_aupdate_ne _ _ _ _ (fun hh => hkn hh.symm)]
          exact hv

/-- The heart of C1: handling `NewHash(b, h)` when boss `a` (distinct from
`b`, same level, different language) already stores hash `h` inserts `b`
into `a`'s translations, inserts `a`'s name into `b`'s translations, and
offers a `BossUpdate` for each of the two bosses to the global group. -/
theorem handleImageHash_symmetry_step {σ Item : Type} (w1 : Worker σ Item)
    (a b : BossName) (hsh : ImageHash) (eA1 eB1 : RaidBossEntry σ)
    (hA1 : alookup w1.bosses a = some eA1)
    (hB1 : alookup w1.bosses b = some eB1)
    (hab : ¬ a = b)
    (hnameA1 : eA1.bossData.boss.name = a)
    (hnameB1 : eB1.bossData.boss.name = b)
    (hlevel1 : eA1.bossData.boss.level = eB1.bossData.boss.level)
    (hlang1 : ¬ eA1.bossData.boss.language = eB1.bossData.boss.language)
    (hhashA : eA1.bossData.imageHash = some hsh) :
    ∃ w2 log2, w1.handleImageHash b hsh = (w2, log2) ∧
      (∃ eA2, alookup w2.bosses a = some eA2 ∧
        b ∈ eA2.bossData.boss.translations) ∧
      (∃ eB2, alookup w2.bosses b = some eB2 ∧
        a ∈ eB2.bossData.boss.translations) ∧
      (∃ bA, Message.bossUpdate bA ∈ log2 ∧ bA.name = a) ∧
      (∃ bB, Message.bossUpdate bB ∈ log2 ∧ bB.name = b) := by
  have hcondA : eA1.bossData.boss.level = eB1.bossData.boss.level ∧
      eA1.bossData.boss.language ≠ eB1.bossData.boss.language ∧
      eA1.bossData.imageHash = some hsh := ⟨hlevel1, hlang1, hhashA⟩
  have halkA1 : alookup (aupdate w1.bosses b
      (fun e => { e with bossData.imageHash := some hsh })) a = some eA1 := by
    rw [alookup_aupdate_ne _ _ _ _ (fun hh => hab hh.symm), hA1]
  have halkB1 : alookup (aupdate w1.bosses b
      (fun e => { e with bossData.imageHash := some hsh })) b =
      some ({ eB1 with bossData.imageHash := (some hsh) }) := by
    rw [alookup_aupdate_self, hB1]
    rfl
  have hmemA : (a, eA1) ∈ aupdate w1.bosses b
      (fun e => { e with bossData.imageHash := some hsh }) :=
    alookup_mem _ _ _ halkA1
  have hmatched : a ∈ (Worker.scanFold w1.filterMapMessage w1.sendImpl b
      eB1.bossData.boss.level eB1.bossData.boss.language hsh
      (aupdate w1.bosses b (fun e => { e with bossData.imageHash := some hsh }))
      w1.subscribers [] []).matched := by
    rw [Worker.scanFold_matched]
    refine List.mem_append_right _ (List.mem_filterMap.mpr ⟨(a, eA1), hmemA, ?_⟩)
    show (if eA1.bossData.boss.level = eB1.bossData.boss.level ∧
        eA1.bossData.boss.language ≠ eB1.bossData.boss.language ∧
        eA1.bossData.imageHash = some hsh then
      some eA1.bossData.boss.name else none) = some a
    rw [if_pos hcondA, hnameA1]
  have hm : ¬ (Worker.scanFold w1.filterMapMessage w1.sendImpl b
      eB1.bossData.boss.level eB1.bossData.boss.language hsh
      (aupdate w1.bosses b (fun e => { e with bossData.imageHash := some hsh }))
      w1.subscribers [] []).matched.isEmpty = true := by
    intro hE
    rw [List.isEmpty_iff] at hE
    rw [hE] at hmatched
    cases hmatched
  have hbosses := Worker.scanFold_bosses w1.filterMapMessage w1.sendImpl b
    eB1.bossData.boss.level eB1.bossData.boss.language hsh
    (aupdate w1.bosses b (fun e => { e with bossData.imageHash := some hsh }))
    w1.subscribers [] []
  have hexA : ∃ vA, alookup (Worker.scanFold w1.filterMapMessage w1.sendImpl b
      eB1.bossData.boss.level eB1.bossData.boss.language hsh
      (aupdate w1.bosses b (fun e => { e with bossData.imageHash := some hsh }))
      w1.subscribers [] []).bosses a = some vA ∧
      b ∈ vA.bossData.boss.translations ∧
      vA.bossData.boss.name = a := by
    rw [hbosses, alookup_scanmap, halkA1]
    simp only [Option.map_some']
    rw [if_pos hcondA]
    exact ⟨_, rfl, mem_insertName_self b _, hnameA1⟩
  have hexB : ∃ vB, alookup (Worker.scanFold w1.filterMapMessage w1.sendImpl b
      eB1.bossData.boss.level eB1.bossData.boss.language hsh
      (aupdate w1.bosses b (fun e => { e with bossData.imageHash := some hsh }))
      w1.subscribers [] []).bosses b = some vB ∧
      vB.bossData.boss.name = b := by
    rw [hbosses, alookup_scanmap, halkB1]
    simp only [Option.map_some']
    split
    · exact ⟨_, rfl, hnameB1⟩
    · exact ⟨_, rfl, hnameB1⟩
  obtain ⟨vA, hvA, hvAmem, hvAname⟩ := hexA
  obtain ⟨vB, hvB, hvBname⟩ := hexB
  have hlogA : Message.bossUpdate ({ eA1 with bossData.boss.translations :=
      (insertName b eA1.bossData.boss.translations) }).bossData.boss ∈
      (Worker.scanFold w1.filterMapMessage w1.sendImpl b
        eB1.bossData.boss.level eB1.bossData.boss.language hsh
        (aupdate w1.bosses b
          (fun e => { e with bossData.imageHash := some hsh }))
        w1.subscribers [] []).log := by
    rw [Worker.scanFold_log]
    refine List.mem_append_right _ (List.mem_filterMap.mpr ⟨(a, eA1), hmemA, ?_⟩)
    show (if eA1.bossData.boss.level = eB1.bossData.boss.level ∧
        eA1.bossData.boss.language ≠ eB1.bossData.boss.language ∧
        eA1.bossData.imageHash = some hsh then
      some (Message.bossUpdate ({ eA1 with bossData.boss.translations :=
        (insertName b eA1.bossData.boss.translations) }).bossData.boss)
      else none) =
      some (Message.bossUpdate ({ eA1 with bossData.boss.translations :=
        (insertName b eA1.bossData.boss.translations) }).bossData.boss)
    rw [if_pos hcondA]
  rw [Worker.handleImageHash, hB1]
  dsimp only
  rw [if_neg hm, hvB]
  dsimp only [Worker.updateCachedBossList]
  refine ⟨_, _, rfl, ?_, ?_, ?_, ?_⟩
  · refine ⟨vA, ?_, hvAmem⟩
    rw [alookup_aupdate_ne _ _ _ _ (fun hh => hab hh.symm)]
    exact hvA
  · refine ⟨{ vB with bossData.boss.translations :=
      (extendNames vB.bossData.boss.translations
        (Worker.scanFold w1.filterMapMessage w1.sendImpl b
          eB1.bossData.boss.level eB1.bossData.boss.language hsh
          (aupdate w1.bosses b
            (fun e => { e with bossData.imageHash := some hsh }))
          w1.subscribers [] []).matched) }, ?_, ?_⟩
    · rw [alookup_aupdate_self, hvB]
      rfl
    · exact mem_extendNames_of_mem_right _ _ _ hmatched
  · exact ⟨_, List.mem_append_left _ hlogA, hnameA1⟩
  · exact ⟨_, List.mem_append_right _ (List.mem_singleton.mpr rfl), hvBname⟩

/-- **C1.** Translation symmetry of the catalog: if the catalog holds two
entries `a` and `b` (keys matching the stored boss names) with equal level
and different language, then after `NewHash(a, h)` followed by
`NewHash(b, h)` boss `a`'s translations contain `b`'s name and boss `b`'s
translations contain `a`'s name, and the second event offers a `BossUpdate`
for each of the two bosses to the global subscriber group.  The hypotheses
are symmetric in `a` and `b`, so instantiating them with the two names
swapped covers the other handling order. -/
theorem C1_translation_symmetry {σ Item : Type} (w : Worker σ Item)
    (a b : BossName) (hsh : ImageHash) (eA eB : RaidBossEntry σ)
    (hA : alookup w.bosses a = some eA)
    (hB : alookup w.bosses b = some eB)
    (hab : ¬ a = b)
    (hnameA : eA.bossData.boss.name = a)
    (hnameB : eB.bossData.boss.name = b)
    (hlevel : eA.bossData.boss.level = eB.bossData.boss.level)
    (hlang : ¬ eA.bossData.boss.language = eB.bossData.boss.language) :
    ∃ w2 log2,
      ((w.handleImageHash a hsh).1.handleImageHash b hsh) = (w2, log2) ∧
      (∃ eA2, alookup w2.bosses a = some eA2 ∧
        b ∈ eA2.bossData.boss.translations) ∧
      (∃ eB2, alookup w2.bosses b = some eB2 ∧
        a ∈ eB2.bossData.boss.translations) ∧
      (∃ bA, Message.bossUpdate bA ∈ log2 ∧ bA.name = a) ∧
      (∃ bB, Message.bossUpdate bB ∈ log2 ∧ bB.name = b) := by
  obtain ⟨eA1, hA1, hA1name, hA1level, hA1lang, hA1hash⟩ :=
    handleImageHash_alookup w a hsh a eA hA
  obtain ⟨eB1, hB1, hB1name, hB1level, hB1lang, -⟩ :=
    handleImageHash_alookup w a hsh b eB hB
  exact handleImageHash_symmetry_step (w.handleImageHash a hsh).1 a b hsh
    eA1 eB1 hA1 hB1 hab (hA1name.trans hnameA) (hB1name.trans hnameB)
    (by rw [hA1level, hB1level, hlevel])
    (by rw [hA1lang, hB1lang]; exact hlang)
    (hA1hash rfl)

/-- Witness for C1: the concrete two-boss catalog, both level 60, English
vs Japanese, hashed with the same value. -/
theorem C1_translation_symmetry_witness :
    (alookup workerAB.bosses "A" = some bossAEntry) ∧
    (alookup workerAB.bosses "B" = some bossBEntry) ∧
    (¬ ("A" : String) = "B") ∧
    (bossAEntry.bossData.boss.name = "A") ∧
    (bossBEntry.bossData.boss.name = "B") ∧
    (bossAEntry.bossData.boss.level = bossBEntry.bossData.boss.level) ∧
    (¬ bossAEntry.bossData.boss.language = bossBEntry.bossData.boss.language) ∧
    (∃ w2 log2,
      ((workerAB.handleImageHash "A" 77).1.handleImageHash "B" 77) =
        (w2, log2) ∧
      (∃ eA2, alookup w2.bosses "A" = some eA2 ∧
        "B" ∈ eA2.bossData.boss.translations) ∧
      (∃ eB2, alookup w2.bosses "B" = some eB2 ∧
        "A" ∈ eB2.bossData.boss.translations) ∧
      (∃ bA, Message.bossUpdate bA ∈ log2 ∧ bA.name = "A") ∧
      (∃ bB, Message.bossUpdate bB ∈ log2 ∧ bB.name = "B")) :=
  ⟨rfl, rfl, by decide, rfl, rfl, rfl, by decide,
    C1_translation_symmetry workerAB "A" "B" 77 bossAEntry bossBEntry rfl
      rfl (by decide) rfl rfl rfl (by decide)⟩

end Petronel
